/-
Verification of the field_interpolation constraint assembler.

The C++ source (src/field_interpolation.cpp) is shallowly embedded below:
floats become exact rationals (ℚ), C++ ints become ℤ (or ℕ for row
indices/counts), fixed-size stack arrays become lists, and the in-place
mutation of the growing linear system becomes explicit state passing of a
`LinearEquation` value.  Loops over dimensions become structural recursion
or folds over the per-dimension data; the corner loops over `i < 2^N`
using bit `d` of `i` become recursions extracting `i % 2` and recursing on
`i / 2` (bit d of i is (i >>> d) % 2 = (i / 2^d) % 2).
-/
import Mathlib

set_option maxHeartbeats 1000000

namespace FieldInterpolation

/-- A sparse-matrix entry `(row, col, value)`, from sparse_linear.hpp. -/
structure Triplet where
  row : Nat
  col : Int
  value : Rat
deriving DecidableEq, Repr

/-- The growing linear system: triplets plus the right-hand side. -/
structure LinearEquation where
  triplets : List Triplet
  rhs : List Rat
deriving DecidableEq, Repr

/-- A `(column, coefficient)` pair handed to `add_equation`. -/
structure LinearEquationPair where
  column : Int
  value : Rat
deriving DecidableEq, Repr

/-- The gradient kernel selector. -/
inductive GradientKernel where
  | kNearestNeighbor
  | kCellEdges
  | kLinearInteprolation
deriving DecidableEq, Repr

/-- The weights configuring the regularizer and the data terms. -/
structure Weights where
  data_pos : Rat
  data_gradient : Rat
  model_0 : Rat
  model_1 : Rat
  model_2 : Rat
  model_3 : Rat
  model_4 : Rat
  gradient_smoothness : Rat
  gradient_kernel : GradientKernel
deriving DecidableEq, Repr

/-- Modelled from the spec: the header field_interpolation.hpp (not part of
the provided sources) constructs the row-major strides of a lattice from its
sizes as `strides[0] = 1`, `strides[d] = strides[d-1] * sizes[d-1]`. -/
def stridesOf_go (acc : Int) : List Int → List Int
  | [] => []
  | s :: rest => acc :: stridesOf_go (acc * s) rest

/-- Modelled from the spec: row-major strides of a lattice. -/
def stridesOf (sizes : List Int) : List Int :=
  stridesOf_go 1 sizes

/-- A lattice together with the linear system being assembled over it. -/
structure LatticeField where
  sizes : List Int
  eq : LinearEquation
deriving DecidableEq, Repr

/-- The derived strides of the lattice (see `stridesOf`). -/
def LatticeField.strides (field : LatticeField) : List Int :=
  stridesOf field.sizes

/-- Embeds `add_equation`: skip when the weight is zero, append one triplet
per nonzero coefficient (scaled by the weight) on a fresh row, and append
the scaled rhs only when at least one coefficient was nonzero. -/
def add_equation (eq : LinearEquation) (weight : Rat) (rhs : Rat)
    (pairs : List LinearEquationPair) : LinearEquation :=
  if weight = 0 then eq
  else
    let row := eq.rhs.length
    let newTriplets := (pairs.filter (fun pair => pair.value ≠ 0)).map
      (fun pair => Triplet.mk row pair.column (pair.value * weight))
    if newTriplets.isEmpty then eq
    else { triplets := eq.triplets ++ newTriplets, rhs := eq.rhs ++ [rhs * weight] }

/-- Per-dimension data made from the field and the query position:
stride, size, ⌊pos⌋ and the fractional part t. -/
structure DimInfo where
  stride : Int
  size : Int
  floored : Int
  t : Rat
deriving DecidableEq, Repr

/-- The linear index of corner `i` of the interpolation cube:
`Σ_d strides[d] * (floored[d] + bit_d(i))`. -/
def cornerIndex : List DimInfo → Nat → Int
  | [], _ => 0
  | di :: rest, i => di.stride * (di.floored + (i % 2 : Nat)) + cornerIndex rest (i / 2)

/-- The multilinear weight of corner `i`: `Π_d (bit_d(i) ? t[d] : 1 - t[d])`. -/
def cornerWeight : List DimInfo → Nat → Rat
  | [], _ => 1
  | di :: rest, i => (if i % 2 = 1 then di.t else 1 - di.t) * cornerWeight rest (i / 2)

/-- Whether corner `i` is admitted: for every dimension
`0 ≤ coord` and `coord + extra_bound < size` where `coord = floored + bit`. -/
def cornerInside : List DimInfo → Int → Nat → Bool
  | [], _, _ => true
  | di :: rest, extra_bound, i =>
    (decide (0 ≤ di.floored + (i % 2 : Nat) ∧
             di.floored + (i % 2 : Nat) + extra_bound < di.size)) &&
    cornerInside rest extra_bound (i / 2)

/-- The per-dimension data of `multilerp` for a field and a position. -/
def dimInfos (field : LatticeField) (pos : List Rat) : List DimInfo :=
  (field.strides.zip (field.sizes.zip pos)).map
    (fun x => DimInfo.mk x.1 x.2.1 ⌊x.2.2⌋ (x.2.2 - ⌊x.2.2⌋))

/-- Embeds `multilerp`: visit the `2^N` corners in order and emit
`(linear index, weight)` for each admitted corner. -/
def multilerp (field : LatticeField) (pos : List Rat) (extra_bound : Int) :
    List (Int × Rat) :=
  let dims := dimInfos field pos
  (List.range (2 ^ field.sizes.length)).filterMap (fun i =>
    if cornerInside dims extra_bound i then
      some (cornerIndex dims i, cornerWeight dims i)
    else none)

/-- Embeds `add_value_constraint`.  Returns the updated field and the
boolean result of the C++ function. -/
def add_value_constraint (field : LatticeField) (pos : List Rat) (value : Rat)
    (constraint_weight : Rat) : LatticeField × Bool :=
  if constraint_weight = 0 then (field, false)
  else
    let samples := multilerp field pos 0
    if samples.length = 0 then (field, false)
    else
      let row := field.eq.rhs.length
      let newTriplets := samples.map
        (fun s => Triplet.mk row s.1 (s.2 * constraint_weight))
      let weight_sum := (samples.map (fun s => s.2 * constraint_weight)).sum
      ({ field with
         eq := { triplets := field.eq.triplets ++ newTriplets,
                 rhs := field.eq.rhs ++ [weight_sum * value] } }, true)

/-- Embeds the dimension loop of `cell_index`: `-1` on the first dimension
whose floored coordinate is out of the lattice, otherwise the accumulated
linear index.  Dims entries are `(size, stride, pos)`. -/
def cell_index_go : List (Int × Int × Rat) → Int → Int
  | [], acc => acc
  | (size, stride, p) :: rest, acc =>
    let pos_d := ⌊p⌋
    if 0 ≤ pos_d ∧ pos_d + 1 < size then cell_index_go rest (acc + pos_d * stride)
    else -1

/-- Embeds `cell_index`: the linear index of the cell containing `pos`,
or `-1` when out of bounds. -/
def cell_index (field : LatticeField) (pos : List Rat) : Int :=
  cell_index_go ((field.sizes.zip (field.strides.zip pos)).map
    (fun x => (x.1, x.2.1, x.2.2))) 0

/-- The offset of cube corner `c` from the cell base index:
`Σ_a strides[a] * bit_a(c)`. -/
def corner_offset : List Int → Nat → Int
  | [], _ => 0
  | s :: rest, c => s * (c % 2 : Nat) + corner_offset rest (c / 2)

/-- Embeds `add_gradient_constraint` with its three kernels. -/
def add_gradient_constraint (field : LatticeField) (pos : List Rat)
    (gradient : List Rat) (constraint_weight : Rat) (kernel : GradientKernel) :
    LatticeField × Bool :=
  if constraint_weight = 0 then (field, false)
  else
    match kernel with
    | GradientKernel.kNearestNeighbor =>
      let index := cell_index field pos
      if index < 0 then (field, false)
      else
        let num_dim := field.sizes.length
        let eq1 := (List.range num_dim).foldl (fun e d =>
          add_equation e constraint_weight (gradient.getD d 0)
            [⟨index, -1⟩, ⟨index + field.strides.getD d 0, 1⟩]) field.eq
        ({ field with eq := eq1 }, true)
    | GradientKernel.kCellEdges =>
      let index := cell_index field pos
      if index < 0 then (field, false)
      else
        let num_dim := field.sizes.length
        let eq1 := (List.range num_dim).foldl (fun e d =>
          let row := e.rhs.length
          let num_corners : Nat := 2 ^ num_dim
          let term_weight := constraint_weight * 2 / (num_corners : Rat)
          let newTriplets := (List.range num_corners).map (fun corner =>
            let corner_index := index + corner_offset field.strides corner
            let sign : Rat := if (corner >>> d) % 2 = 1 then 1 else -1
            Triplet.mk row corner_index (sign * term_weight))
          { triplets := e.triplets ++ newTriplets,
            rhs := e.rhs ++ [constraint_weight * gradient.getD d 0] }) field.eq
        ({ field with eq := eq1 }, true)
    | GradientKernel.kLinearInteprolation =>
      let num_dim := field.sizes.length
      let adjusted_pos := pos.map (fun p => p - 1/2)
      let samples := multilerp field adjusted_pos 1
      if samples.length = 0 then (field, false)
      else
        let eq1 := (List.range num_dim).foldl (fun e d =>
          let row := e.rhs.length
          let newTriplets := (samples.map (fun s =>
            let sample_weight := s.2 * constraint_weight
            [Triplet.mk row s.1 (-sample_weight),
             Triplet.mk row (s.1 + field.strides.getD d 0) sample_weight])).flatten
          let weight_sum := (samples.map (fun s => s.2 * constraint_weight)).sum
          { triplets := e.triplets ++ newTriplets,
            rhs := e.rhs ++ [weight_sum * gradient.getD d 0] }) field.eq
        ({ field with eq := eq1 }, true)

/-- Embeds `add_model_constraint`: the order-0..4 finite-difference priors
along dimension `d` at the given cell, plus the cross-partial
gradient-smoothness prior. -/
def add_model_constraint (field : LatticeField) (weights : Weights)
    (coordinate : List Int) (index : Int) (d : Nat) : LatticeField :=
  let size := field.sizes.getD d 0
  let stride := field.strides.getD d 0
  let dim_cord := coordinate.getD d 0
  let eq1 :=
    if weights.model_0 > 0 ∧ 0 ≤ dim_cord ∧ dim_cord < size then
      add_equation field.eq weights.model_0 0 [⟨index, 1⟩]
    else field.eq
  let eq2 :=
    if weights.model_1 > 0 ∧ 0 ≤ dim_cord ∧ dim_cord + 1 < size then
      add_equation eq1 weights.model_1 0
        [⟨index + 0 * stride, -1⟩, ⟨index + 1 * stride, 1⟩]
    else eq1
  let eq3 :=
    if weights.model_2 > 0 ∧ 0 ≤ dim_cord ∧ dim_cord + 2 < size then
      add_equation eq2 weights.model_2 0
        [⟨index + 0 * stride, 1⟩, ⟨index + 1 * stride, -2⟩, ⟨index + 2 * stride, 1⟩]
    else eq2
  let eq4 :=
    if weights.model_3 > 0 ∧ 0 ≤ dim_cord ∧ dim_cord + 3 < size then
      add_equation eq3 weights.model_3 0
        [⟨index + 0 * stride, 1⟩, ⟨index + 1 * stride, -3⟩,
         ⟨index + 2 * stride, 3⟩, ⟨index + 3 * stride, -1⟩]
    else eq3
  let eq5 :=
    if weights.model_4 > 0 ∧ 0 ≤ dim_cord ∧ dim_cord + 4 < size then
      add_equation eq4 weights.model_4 0
        [⟨index + 0 * stride, 1⟩, ⟨index + 1 * stride, -4⟩,
         ⟨index + 2 * stride, 6⟩, ⟨index + 3 * stride, -4⟩,
         ⟨index + 4 * stride, 1⟩]
    else eq4
  let eq6 :=
    if weights.gradient_smoothness > 0 ∧ 0 ≤ dim_cord ∧ dim_cord + 1 < size then
      (List.range field.sizes.length).foldl (fun e orthogonal_dim =>
        if d = orthogonal_dim then e
        else if coordinate.getD orthogonal_dim 0 + 1 ≥
                field.sizes.getD orthogonal_dim 0 then e
        else
          add_equation e weights.gradient_smoothness 0
            [⟨index + 0 * field.strides.getD orthogonal_dim 0 + 0 * stride, -1⟩,
             ⟨index + 0 * field.strides.getD orthogonal_dim 0 + 1 * stride, 1⟩,
             ⟨index + 1 * field.strides.getD orthogonal_dim 0 + 0 * stride, 1⟩,
             ⟨index + 1 * field.strides.getD orthogonal_dim 0 + 1 * stride, -1⟩])
        eq5
    else eq5
  { field with eq := eq6 }

/-- Embeds `coordinate_from_index`: peel off `index % sizes[d]` and divide. -/
def coord_from_index_go : List Int → Int → List Int
  | [], _ => []
  | s :: rest, index => index % s :: coord_from_index_go rest (index / s)

/-- The lattice coordinate of a linear index. -/
def coordinate_from_index (field : LatticeField) (index : Int) : List Int :=
  coord_from_index_go field.sizes index

/-- Embeds `add_field_constraints`: the model constraints for every cell
and every dimension. -/
def add_field_constraints (field : LatticeField) (weights : Weights) :
    LatticeField :=
  let num_unknowns := field.sizes.foldl (fun a s => a * s) 1
  (List.range num_unknowns.toNat).foldl (fun f (index : Nat) =>
    let coordinate := coordinate_from_index f (index : Int)
    (List.range f.sizes.length).foldl (fun f2 d =>
      add_model_constraint f2 weights coordinate (index : Int) d) f) field

/-- Embeds `sdf_from_points`: install the field constraints, then a value
constraint (target 0) and optionally a gradient constraint per point. -/
def sdf_from_points (sizes : List Int) (weights : Weights)
    (positions : List (List Rat)) (normals : Option (List (List Rat)))
    (point_weights : Option (List Rat)) : LatticeField :=
  let field0 : LatticeField := { sizes := sizes, eq := { triplets := [], rhs := [] } }
  let field1 := add_field_constraints field0 weights
  positions.enum.foldl (fun f ip =>
    let i := ip.1
    let pos := ip.2
    let weight := match point_weights with
      | some pw => pw.getD i 0
      | none => 1
    let f2 := (add_value_constraint f pos 0 (weight * weights.data_pos)).1
    match normals with
    | some ns =>
      (add_gradient_constraint f2 pos (ns.getD i [])
        (weight * weights.data_gradient) weights.gradient_kernel).1
    | none => f2) field1

/-- Embeds `generate_error_map`: residual per row, row energy per row,
squared residuals, then the per-cell blame heatmap. -/
def generate_error_map (triplets : List Triplet) (solution : List Rat)
    (rhs : List Rat) : List Rat :=
  let row_errors := triplets.foldl (fun a t =>
    a.set t.row (a.getD t.row 0 - solution.getD t.col.toNat 0 * t.value)) rhs
  let sum_of_value_sq := triplets.foldl (fun a t =>
    a.set t.row (a.getD t.row 0 + t.value * t.value))
    (List.replicate rhs.length 0)
  let row_errors_sq := row_errors.map (fun e => e * e)
  triplets.foldl (fun a t =>
    if sum_of_value_sq.getD t.row 0 ≠ 0 then
      a.set t.col.toNat (a.getD t.col.toNat 0 +
        (t.value * t.value) / sum_of_value_sq.getD t.row 0 *
          row_errors_sq.getD t.row 0)
    else a)
    (List.replicate solution.length 0)

/-! Derived definitions used to state the claims. -/

/-- Every triplet's row index is strictly below the number of rhs entries. -/
def RowsBounded (eq : LinearEquation) : Prop :=
  ∀ t ∈ eq.triplets, t.row < eq.rhs.length

/-- Row density: rows are bounded and every row index in `[0, len rhs)`
occurs as the row of at least one triplet. -/
def RowDense (eq : LinearEquation) : Prop :=
  RowsBounded eq ∧ ∀ r < eq.rhs.length, ∃ t ∈ eq.triplets, t.row = r

/-- One assembly operation: a value constraint, a gradient constraint under
any kernel, or a per-cell model constraint. -/
inductive AssemblyOp where
  | value (pos : List Rat) (v w : Rat)
  | gradient (pos g : List Rat) (w : Rat) (kernel : GradientKernel)
  | model (weights : Weights) (coordinate : List Int) (index : Int) (d : Nat)
deriving Repr

/-- Apply one assembly operation to a field. -/
def applyOp (field : LatticeField) : AssemblyOp → LatticeField
  | AssemblyOp.value pos v w => (add_value_constraint field pos v w).1
  | AssemblyOp.gradient pos g w kernel =>
      (add_gradient_constraint field pos g w kernel).1
  | AssemblyOp.model weights coordinate index d =>
      add_model_constraint field weights coordinate index d

/-- Apply a sequence of assembly operations. -/
def applyOps (field : LatticeField) (ops : List AssemblyOp) : LatticeField :=
  ops.foldl applyOp field

/-- The residual of row `r` as the spec describes it:
`rhs[r] − Σ_{(r,c,v)} v * x[c]`. -/
def rowResidualList (triplets : List Triplet) (solution rhs : List Rat)
    (r : Nat) : Rat :=
  rhs.getD r 0 - ((triplets.filter (fun t => t.row == r)).map
    (fun t => solution.getD t.col.toNat 0 * t.value)).sum

/-- The residual of row `r` against a solution given as a function of the
linear index. -/
def rowResidual (eq : LinearEquation) (x : Int → Rat) (r : Nat) : Rat :=
  eq.rhs.getD r 0 - ((eq.triplets.filter (fun t => t.row == r)).map
    (fun t => t.value * x t.col)).sum

/-- Every assembled row has zero residual against `x`. -/
def ZeroResidual (eq : LinearEquation) (x : Int → Rat) : Prop :=
  ∀ r < eq.rhs.length, rowResidual eq x r = 0

/-- Rows bounded together with zero residual: the invariant carried
through the model-constraint assembly. -/
def GoodRes (eq : LinearEquation) (x : Int → Rat) : Prop :=
  RowsBounded eq ∧ ZeroResidual eq x

/-- The value of the monomial with exponent vector `es` at an integer
lattice coordinate. -/
def evalMono (coordinate : List Int) (es : List Nat) : Rat :=
  ((coordinate.zip es).map (fun p => (p.1 : Rat) ^ p.2)).prod

/-- A polynomial given as a list of (coefficient, exponent-vector)
monomials, evaluated at a lattice coordinate. -/
def evalP (ms : List (Rat × List Nat)) (coordinate : List Int) : Rat :=
  (ms.map (fun m => m.1 * evalMono coordinate m.2)).sum

/-- The weight configuration in which only `model_k` is active. -/
def modelOnly (k : Nat) (w : Rat) : Weights :=
  { data_pos := 0, data_gradient := 0,
    model_0 := if k = 0 then w else 0,
    model_1 := if k = 1 then w else 0,
    model_2 := if k = 2 then w else 0,
    model_3 := if k = 3 then w else 0,
    model_4 := if k = 4 then w else 0,
    gradient_smoothness := 0,
    gradient_kernel := GradientKernel.kNearestNeighbor }

/-- The first fold of `generate_error_map`: per-row residuals. -/
def errorRowErrors (triplets : List Triplet) (solution rhs : List Rat) :
    List Rat :=
  triplets.foldl (fun a t =>
    a.set t.row (a.getD t.row 0 - solution.getD t.col.toNat 0 * t.value)) rhs

/-- The second fold of `generate_error_map`: per-row sums of squared
coefficients. -/
def errorRowEnergies (triplets : List Triplet) (rhs : List Rat) : List Rat :=
  triplets.foldl (fun a t =>
    a.set t.row (a.getD t.row 0 + t.value * t.value))
    (List.replicate rhs.length 0)

/-- The squared per-row residuals of `generate_error_map`. -/
def errorRowSquares (triplets : List Triplet) (solution rhs : List Rat) :
    List Rat :=
  (errorRowErrors triplets solution rhs).map (fun e => e * e)

/-- The linear index of a lattice coordinate: `c₀ + s₀ * (c₁ + s₁ * (...))`,
the inverse of `coord_from_index_go`. -/
def indexEncode : List Int → List Int → Int
  | _, [] => 0
  | [], _ => 0
  | s :: ss, c :: cs => c + s * indexEncode ss cs

/-- The product of the lattice sizes. -/
def sizesProd : List Int → Int
  | [] => 1
  | s :: ss => s * sizesProd ss

/-! Claims C5, C1, C2. -/

/-- Claim C5: for every call to the append-equation primitive with nonzero
weight in which every supplied coefficient is zero, no triplet is appended
and rhs does not grow, even when the requested rhs value is nonzero. -/
theorem add_equation_drops_all_zero (eq : LinearEquation) (weight rhs : Rat)
    (pairs : List LinearEquationPair) (hw : weight ≠ 0)
    (hz : ∀ p ∈ pairs, p.value = 0) :
    add_equation eq weight rhs pairs = eq := by
  have hfil : pairs.filter (fun pair => !decide (pair.value = 0)) = [] := by
    rw [List.filter_eq_nil_iff]
    intro p hp
    simp [hz p hp]
  simp [add_equation, hw, hfil]

/-- Witness for C5 at a concrete input: weight 1, rhs 2, one zero
coefficient; the system is unchanged. -/
theorem add_equation_drops_all_zero_witness :
    (1 : Rat) ≠ 0 ∧ (∀ p ∈ [LinearEquationPair.mk 3 0], p.value = 0) ∧
      add_equation ⟨[], []⟩ 1 2 [LinearEquationPair.mk 3 0] = ⟨[], []⟩ :=
  ⟨by decide, by decide,
    add_equation_drops_all_zero ⟨[], []⟩ 1 2 [LinearEquationPair.mk 3 0]
      (by decide) (by decide)⟩

/-- Counterexample to claim C1 as stated: with `sizes=[5]`, only
`data_pos=1`, one point at `pos=[2.0]` with value 0, the assembled system
does NOT consist of the single triplet `(0, 2, 1.0)` with `rhs=[0.0]`:
the interpolation also emits the admitted corner 3 with kernel weight 0,
so a second triplet `(0, 3, 0.0)` is appended. -/
theorem s1_single_triplet_false :
    ¬ ((sdf_from_points [5]
          (Weights.mk 1 0 0 0 0 0 0 0 GradientKernel.kNearestNeighbor)
          [[2]] none none).eq.triplets = [Triplet.mk 0 2 1] ∧
       (sdf_from_points [5]
          (Weights.mk 1 0 0 0 0 0 0 0 GradientKernel.kNearestNeighbor)
          [[2]] none none).eq.rhs = [0]) := by
  with_unfolding_all decide

/-- Claim C1 (amended): with `sizes=[5]`, only `data_pos=1`, one point at
`pos=[2.0]` with value 0, the assembled system contains exactly one row
consisting of the two triplets `(0, 2, 1.0)` and `(0, 3, 0.0)`, and rhs
equals `[0.0]`. -/
theorem s1_assembled_system :
    (sdf_from_points [5]
        (Weights.mk 1 0 0 0 0 0 0 0 GradientKernel.kNearestNeighbor)
        [[2]] none none).eq.triplets = [Triplet.mk 0 2 1, Triplet.mk 0 3 0] ∧
    (sdf_from_points [5]
        (Weights.mk 1 0 0 0 0 0 0 0 GradientKernel.kNearestNeighbor)
        [[2]] none none).eq.rhs = [0] := by
  with_unfolding_all decide

/-- Claim C2: for every position and nonzero constraint weight for which at
least one interpolation corner is admitted, `add_value_constraint` reports
success, appends exactly one new row (one rhs entry, one triplet per
admitted sample), and the new rhs entry equals the target value times the
sum of the new row's triplet coefficients. -/
theorem add_value_constraint_renormalizes (field : LatticeField)
    (pos : List Rat) (value constraint_weight : Rat)
    (hw : constraint_weight ≠ 0) (hs : multilerp field pos 0 ≠ []) :
    (add_value_constraint field pos value constraint_weight).2 = true ∧
    (add_value_constraint field pos value constraint_weight).1.eq.rhs.length
      = field.eq.rhs.length + 1 ∧
    (add_value_constraint field pos value constraint_weight).1.eq.triplets.length
      = field.eq.triplets.length + (multilerp field pos 0).length ∧
    (add_value_constraint field pos value constraint_weight).1.eq.rhs
      = field.eq.rhs ++ [value *
          (((add_value_constraint field pos value constraint_weight).1.eq.triplets.drop
              field.eq.triplets.length).map (fun t => t.value)).sum] := by
  have hlen : (multilerp field pos 0).length ≠ 0 :=
    fun h => hs (List.length_eq_zero.mp h)
  unfold add_value_constraint
  rw [if_neg hw, if_neg hlen]
  refine ⟨rfl, by simp, by simp, ?_⟩
  simp only [List.drop_left, List.map_map]
  rw [mul_comm]
  rfl

/-- Witness for C2: `sizes=[5]`, `pos=[2]`, value 3, weight 2. -/
theorem add_value_constraint_renormalizes_witness :
    (2 : Rat) ≠ 0 ∧
    multilerp ⟨[5], ⟨[], []⟩⟩ [2] 0 ≠ [] ∧
    ((add_value_constraint ⟨[5], ⟨[], []⟩⟩ [2] 3 2).2 = true ∧
     (add_value_constraint ⟨[5], ⟨[], []⟩⟩ [2] 3 2).1.eq.rhs.length = 0 + 1 ∧
     (add_value_constraint ⟨[5], ⟨[], []⟩⟩ [2] 3 2).1.eq.triplets.length
       = 0 + (multilerp ⟨[5], ⟨[], []⟩⟩ [2] 0).length ∧
     (add_value_constraint ⟨[5], ⟨[], []⟩⟩ [2] 3 2).1.eq.rhs
       = [] ++ [3 * (((add_value_constraint ⟨[5], ⟨[], []⟩⟩ [2] 3 2).1.eq.triplets.drop
             0).map (fun t => t.value)).sum]) :=
  ⟨by decide, by with_unfolding_all decide,
    add_value_constraint_renormalizes ⟨[5], ⟨[], []⟩⟩ [2] 3 2
      (by decide) (by with_unfolding_all decide)⟩

/-! Claim C9: implicit lower-bound rejection of out-of-cell positions. -/

theorem stridesOf_go_length (acc : Int) (sizes : List Int) :
    (stridesOf_go acc sizes).length = sizes.length := by
  induction sizes generalizing acc with
  | nil => rfl
  | cons s rest ih => simp [stridesOf_go, ih]

theorem stridesOf_length (sizes : List Int) :
    (stridesOf sizes).length = sizes.length :=
  stridesOf_go_length 1 sizes

theorem cell_index_go_neg (dims : List (Int × Int × Rat)) (acc : Int)
    (h : ∃ x ∈ dims, ¬ (0 ≤ ⌊x.2.2⌋ ∧ ⌊x.2.2⌋ + 1 < x.1)) :
    cell_index_go dims acc = -1 := by
  induction dims generalizing acc with
  | nil => simp at h
  | cons hd tl ih =>
    obtain ⟨x, hx, hprop⟩ := h
    obtain ⟨s, st, p⟩ := hd
    rcases List.mem_cons.mp hx with hx | hx
    · subst hx
      simp only [cell_index_go]
      rw [if_neg]
      exact hprop
    · simp only [cell_index_go]
      split
      · exact ih _ ⟨x, hx, hprop⟩
      · rfl

theorem cell_index_neg (field : LatticeField) (pos : List Rat) (d : Nat)
    (hlen : pos.length = field.sizes.length) (hd : d < field.sizes.length)
    (hneg : ⌊pos.getD d 0⌋ < 0) :
    cell_index field pos = -1 := by
  have hsl : field.strides.length = field.sizes.length :=
    stridesOf_length field.sizes
  have hzlen : ((field.sizes.zip (field.strides.zip pos)).map
      (fun x => (x.1, x.2.1, x.2.2))).length = field.sizes.length := by
    simp [List.length_zip, hsl, hlen]
  have hdpos : d < pos.length := hlen ▸ hd
  have hdz : d < ((field.sizes.zip (field.strides.zip pos)).map
      (fun x => (x.1, x.2.1, x.2.2))).length := hzlen ▸ hd
  have hget : ((field.sizes.zip (field.strides.zip pos)).map
      (fun x => (x.1, x.2.1, x.2.2))).get ⟨d, hdz⟩
      = (field.sizes.get ⟨d, hd⟩, field.strides.get ⟨d, hsl ▸ hd⟩,
         pos.get ⟨d, hdpos⟩) := by
    simp [List.get_eq_getElem, List.getElem_zip]
  have hgd : pos.getD d 0 = pos.get ⟨d, hdpos⟩ := by
    rw [List.getD_eq_getElem?_getD, List.getElem?_eq_getElem hdpos]
    rfl
  apply cell_index_go_neg
  refine ⟨_, List.get_mem _ d hdz, ?_⟩
  rw [hget]
  intro hcontra
  have := hcontra.1
  simp only at this
  rw [hgd] at hneg
  omega

/-- Claim C9: for the NearestNeighbor and CellEdges gradient kernels, if
for some dimension d the floor of pos[d] is negative, then
`add_gradient_constraint` returns false and leaves the system unchanged
(the lower bound is enforced, not only the upper bound). -/
theorem add_gradient_constraint_rejects_negative_floor
    (field : LatticeField) (pos g : List Rat) (w : Rat)
    (kernel : GradientKernel) (d : Nat)
    (hker : kernel = GradientKernel.kNearestNeighbor ∨
            kernel = GradientKernel.kCellEdges)
    (hlen : pos.length = field.sizes.length)
    (hd : d < field.sizes.length)
    (hneg : ⌊pos.getD d 0⌋ < 0) :
    add_gradient_constraint field pos g w kernel = (field, false) := by
  have hci : cell_index field pos = -1 := cell_index_neg field pos d hlen hd hneg
  rcases hker with hker | hker <;> subst hker <;>
    · unfold add_gradient_constraint
      split
      · rfl
      · simp only [hci]
        norm_num

/-- Witness for C9: `sizes=[3]`, `pos=[-1]` (floor −1 < 0), NearestNeighbor
kernel; the call is rejected. -/
theorem add_gradient_constraint_rejects_negative_floor_witness :
    (GradientKernel.kNearestNeighbor = GradientKernel.kNearestNeighbor ∨
     GradientKernel.kNearestNeighbor = GradientKernel.kCellEdges) ∧
    ([(-1 : Rat)].length = ([3] : List Int).length) ∧
    (0 < ([3] : List Int).length) ∧
    ⌊[(-1 : Rat)].getD 0 0⌋ < 0 ∧
    add_gradient_constraint ⟨[3], ⟨[], []⟩⟩ [-1] [1] 1
      GradientKernel.kNearestNeighbor = (⟨[3], ⟨[], []⟩⟩, false) :=
  ⟨Or.inl rfl, rfl, by decide, by with_unfolding_all decide,
    add_gradient_constraint_rejects_negative_floor ⟨[3], ⟨[], []⟩⟩ [-1] [1] 1
      GradientKernel.kNearestNeighbor 0 (Or.inl rfl) rfl (by decide)
      (by with_unfolding_all decide)⟩

/-! Claim C3: interpolation partition of unity inside the lattice. -/

theorem two_mul_mod_two (j : Nat) : (2 * j) % 2 = 0 := by omega

theorem two_mul_div_two (j : Nat) : (2 * j) / 2 = j := by omega

theorem two_mul_add_one_mod_two (j : Nat) : (2 * j + 1) % 2 = 1 := by omega

theorem two_mul_add_one_div_two (j : Nat) : (2 * j + 1) / 2 = j := by omega

theorem sum_range_double (f : Nat → Rat) (m : Nat) :
    ((List.range (2 * m)).map f).sum
      = ((List.range m).map (fun j => f (2 * j) + f (2 * j + 1))).sum := by
  induction m with
  | zero => rfl
  | succ m ih =>
    have h1 : 2 * (m + 1) = (2 * m + 1) + 1 := by omega
    rw [h1, List.range_succ, List.range_succ, List.range_succ]
    simp only [List.map_append, List.sum_append, List.map_cons, List.map_nil,
      List.sum_cons, List.sum_nil, ih]
    ring

theorem cornerWeight_sum (dims : List DimInfo) :
    ((List.range (2 ^ dims.length)).map (cornerWeight dims)).sum = 1 := by
  induction dims with
  | nil => simp [cornerWeight]
  | cons di rest ih =>
    have h2 : 2 ^ (di :: rest).length = 2 * 2 ^ rest.length := by
      simp [List.length_cons, pow_succ, Nat.mul_comm]
    rw [h2, sum_range_double]
    have hcong : ∀ j ∈ List.range (2 ^ rest.length),
        cornerWeight (di :: rest) (2 * j) + cornerWeight (di :: rest) (2 * j + 1)
          = cornerWeight rest j := by
      intro j _
      simp only [cornerWeight, two_mul_mod_two, two_mul_div_two,
        two_mul_add_one_mod_two, two_mul_add_one_div_two]
      norm_num
      ring
    rw [List.map_congr_left hcong, ih]

theorem cornerInside_all (dims : List DimInfo)
    (h : ∀ di ∈ dims, 0 ≤ di.floored ∧ di.floored + 1 < di.size) :
    ∀ i, cornerInside dims 0 i = true := by
  induction dims with
  | nil => intro i; rfl
  | cons di rest ih =>
    intro i
    simp only [cornerInside, Bool.and_eq_true, decide_eq_true_eq]
    obtain ⟨h1, h2⟩ := h di (List.mem_cons_self _ _)
    have hm : i % 2 ≤ 1 := by omega
    refine ⟨⟨?_, ?_⟩, ih (fun x hx => h x (List.mem_cons_of_mem _ hx)) (i / 2)⟩
    · omega
    · omega

theorem filterMap_if_all_true {α : Type} (l : List Nat) (p : Nat → Bool)
    (f : Nat → α) (h : ∀ a ∈ l, p a = true) :
    l.filterMap (fun a => if p a then some (f a) else none) = l.map f := by
  induction l with
  | nil => rfl
  | cons a l ih =>
    simp only [List.filterMap_cons, List.map_cons]
    rw [if_pos (h a (List.mem_cons_self a l))]
    rw [ih (fun b hb => h b (List.mem_cons_of_mem a hb))]

theorem dimInfos_bounds (field : LatticeField) (pos : List Rat)
    (h : List.Forall₂ (fun (s : Int) (p : Rat) => 0 ≤ p ∧ p < (s : Rat) - 1)
      field.sizes pos) :
    ∀ di ∈ dimInfos field pos, 0 ≤ di.floored ∧ di.floored + 1 < di.size := by
  intro di hdi
  simp only [dimInfos, List.mem_map] at hdi
  obtain ⟨x, hx, hdieq⟩ := hdi
  obtain ⟨st, sz, p⟩ := x
  have hx2 : (sz, p) ∈ field.sizes.zip pos := (List.of_mem_zip hx).2
  rw [List.forall₂_iff_zip] at h
  have hp : 0 ≤ p ∧ p < (sz : Rat) - 1 := h.2 hx2
  subst hdieq
  dsimp only
  constructor
  · exact Int.le_floor.mpr (by exact_mod_cast hp.1)
  · have hfl : ⌊p⌋ < sz - 1 := Int.floor_lt.mpr (by push_cast; exact hp.2)
    omega

theorem dimInfos_length (field : LatticeField) (pos : List Rat)
    (hlen : field.sizes.length = pos.length) :
    (dimInfos field pos).length = field.sizes.length := by
  simp only [dimInfos, List.length_map, List.length_zip, LatticeField.strides,
    stridesOf_length, hlen]
  omega

/-- Claim C3: for every lattice of dimension N ∈ [1,4] and every position
with every coordinate in `[0, sizes[d]−1)`, `multilerp` with
`extra_bound = 0` emits exactly 2^N samples, and the emitted kernel weights
sum to 1 exactly. -/
theorem multilerp_partition_of_unity (field : LatticeField) (pos : List Rat)
    (hdim_lo : 1 ≤ field.sizes.length) (hdim_hi : field.sizes.length ≤ 4)
    (hbounds : List.Forall₂ (fun (s : Int) (p : Rat) => 0 ≤ p ∧ p < (s : Rat) - 1)
      field.sizes pos) :
    (multilerp field pos 0).length = 2 ^ field.sizes.length ∧
    ((multilerp field pos 0).map (fun s => s.2)).sum = 1 := by
  have hdl : (dimInfos field pos).length = field.sizes.length :=
    dimInfos_length field pos hbounds.length_eq
  have hins : ∀ i, cornerInside (dimInfos field pos) 0 i = true :=
    cornerInside_all _ (dimInfos_bounds field pos hbounds)
  unfold multilerp
  rw [filterMap_if_all_true _ _ _ (fun a _ => hins a)]
  constructor
  · simp
  · rw [List.map_map]
    have hcomp : ((fun s : Int × Rat => s.2) ∘
        fun i => (cornerIndex (dimInfos field pos) i,
                  cornerWeight (dimInfos field pos) i))
        = cornerWeight (dimInfos field pos) := rfl
    rw [hcomp, ← hdl]
    exact cornerWeight_sum (dimInfos field pos)

/-- Witness for C3: `sizes=[3,3]`, `pos=[1/2, 3/2]`: 4 samples, weights sum
to 1. -/
theorem multilerp_partition_of_unity_witness :
    (1 ≤ (LatticeField.mk [3,3] ⟨[], []⟩).sizes.length) ∧
    ((LatticeField.mk [3,3] ⟨[], []⟩).sizes.length ≤ 4) ∧
    (List.Forall₂ (fun (s : Int) (p : Rat) => 0 ≤ p ∧ p < (s : Rat) - 1)
      (LatticeField.mk [3,3] ⟨[], []⟩).sizes [1/2, 3/2]) ∧
    ((multilerp (LatticeField.mk [3,3] ⟨[], []⟩) [1/2, 3/2] 0).length
        = 2 ^ (LatticeField.mk [3,3] ⟨[], []⟩).sizes.length ∧
     ((multilerp (LatticeField.mk [3,3] ⟨[], []⟩) [1/2, 3/2] 0).map
        (fun s => s.2)).sum = 1) :=
  ⟨by decide, by decide,
    List.Forall₂.cons (by norm_num) (List.Forall₂.cons (by norm_num) List.Forall₂.nil),
    multilerp_partition_of_unity (LatticeField.mk [3,3] ⟨[], []⟩) [1/2, 3/2]
      (by decide) (by decide)
      (List.Forall₂.cons (by norm_num) (List.Forall₂.cons (by norm_num) List.Forall₂.nil))⟩

/-! Claim C4: row density is preserved by every assembly operation. -/

theorem foldl_preserves {α : Type _} {β : Type _} (P : α → Prop) (f : α → β → α)
    (l : List β) (hstep : ∀ a b, P a → P (f a b)) (a : α) (ha : P a) :
    P (l.foldl f a) := by
  induction l generalizing a with
  | nil => exact ha
  | cons b l ih => exact ih _ (hstep a b ha)

theorem foldl_preserves_mem {α : Type _} {β : Type _} (P : α → Prop)
    (f : α → β → α) (l : List β) (hstep : ∀ a b, b ∈ l → P a → P (f a b))
    (a : α) (ha : P a) : P (l.foldl f a) := by
  induction l generalizing a with
  | nil => exact ha
  | cons b l ih =>
    exact ih (fun a c hc ha => hstep a c (List.mem_cons_of_mem _ hc) ha) _
      (hstep a b (List.mem_cons_self _ _) ha)

theorem add_equation_rowDense (eq : LinearEquation) (w r : Rat)
    (pairs : List LinearEquationPair) (h : RowDense eq) :
    RowDense (add_equation eq w r pairs) := by
  simp only [add_equation]
  split
  · exact h
  · split
    · exact h
    · next hne =>
      constructor
      · intro t ht
        simp only [List.mem_append, List.mem_map] at ht
        simp only [List.length_append, List.length_cons, List.length_nil]
        rcases ht with ht | ⟨p, hp, hteq⟩
        · have := h.1 t ht
          omega
        · rw [← hteq]
          dsimp only
          omega
      · intro rr hrr
        simp only [List.length_append, List.length_cons, List.length_nil] at hrr
        rcases Nat.lt_or_ge rr eq.rhs.length with hlt | hge
        · obtain ⟨t, ht, hteq⟩ := h.2 rr hlt
          exact ⟨t, List.mem_append_left _ ht, hteq⟩
        · have hrr' : rr = eq.rhs.length := by omega
          have hne' : (pairs.filter (fun pair => decide (pair.value ≠ 0))).map
              (fun pair => Triplet.mk eq.rhs.length pair.column (pair.value * w)) ≠ [] := by
            intro hcontra
            rw [hcontra] at hne
            simp at hne
          obtain ⟨t, ht⟩ := List.exists_mem_of_ne_nil _ hne'
          refine ⟨t, List.mem_append_right _ ht, ?_⟩
          simp only [List.mem_map] at ht
          obtain ⟨p, hp, hteq⟩ := ht
          rw [← hteq, hrr']

theorem rowDense_append_block (eq : LinearEquation) (ts : List Triplet) (v : Rat)
    (hrow : ∀ t ∈ ts, t.row = eq.rhs.length) (hne : ts ≠ [])
    (h : RowDense eq) :
    RowDense ⟨eq.triplets ++ ts, eq.rhs ++ [v]⟩ := by
  constructor
  · intro t ht
    simp only [List.mem_append] at ht
    simp only [List.length_append, List.length_cons, List.length_nil]
    rcases ht with ht | ht
    · have := h.1 t ht
      omega
    · have := hrow t ht
      omega
  · intro rr hrr
    simp only [List.length_append, List.length_cons, List.length_nil] at hrr
    rcases Nat.lt_or_ge rr eq.rhs.length with hlt | hge
    · obtain ⟨t, ht, hteq⟩ := h.2 rr hlt
      exact ⟨t, List.mem_append_left _ ht, hteq⟩
    · have hrr' : rr = eq.rhs.length := by omega
      obtain ⟨t, ht⟩ := List.exists_mem_of_ne_nil _ hne
      exact ⟨t, List.mem_append_right _ ht, by rw [hrow t ht, hrr']⟩

theorem add_value_constraint_rowDense (field : LatticeField) (pos : List Rat)
    (v w : Rat) (h : RowDense field.eq) :
    RowDense (add_value_constraint field pos v w).1.eq := by
  simp only [add_value_constraint]
  split
  · exact h
  · split
    · exact h
    · next hlen =>
      apply rowDense_append_block
      · intro t ht
        simp only [List.mem_map] at ht
        obtain ⟨s, hs, hteq⟩ := ht
        rw [← hteq]
      · intro hcontra
        have hlc := congrArg List.length hcontra
        simp at hlc
        exact hlen (by rw [hlc]; rfl)
      · exact h

theorem add_gradient_constraint_rowDense (field : LatticeField)
    (pos g : List Rat) (w : Rat) (kernel : GradientKernel)
    (h : RowDense field.eq) :
    RowDense (add_gradient_constraint field pos g w kernel).1.eq := by
  cases kernel with
  | kNearestNeighbor =>
    simp only [add_gradient_constraint]
    split
    · exact h
    · split
      · exact h
      · refine foldl_preserves RowDense _ _ ?_ _ h
        intro e d hp
        exact add_equation_rowDense e _ _ _ hp
  | kCellEdges =>
    simp only [add_gradient_constraint]
    split
    · exact h
    · split
      · exact h
      · refine foldl_preserves RowDense _ _ ?_ _ h
        intro e d hp
        apply rowDense_append_block
        · intro t ht
          simp only [List.mem_map] at ht
          obtain ⟨c, hc, hteq⟩ := ht
          rw [← hteq]
        · intro hcontra
          have hlc := congrArg List.length hcontra
          simp at hlc
        · exact hp
  | kLinearInteprolation =>
    simp only [add_gradient_constraint]
    split
    · exact h
    · split
      · exact h
      · next hslen =>
        refine foldl_preserves RowDense _ _ ?_ _ h
        intro e d hp
        apply rowDense_append_block
        · intro t ht
          simp only [List.mem_flatten, List.mem_map] at ht
          obtain ⟨l, ⟨s, hs, hleq⟩, htl⟩ := ht
          rw [← hleq] at htl
          simp only [List.mem_cons, List.mem_singleton] at htl
          rcases htl with htl | htl | htl
          · rw [htl]
          · rw [htl]
          · simp at htl
        · cases hsam : multilerp field (pos.map (fun p => p - 1/2)) 1 with
          | nil => rw [hsam] at hslen; simp at hslen
          | cons s rest => simp
        · exact hp

theorem ite_add_equation_rowDense (c : Prop) [Decidable c]
    (eq : LinearEquation) (w r : Rat) (pairs : List LinearEquationPair)
    (h : RowDense eq) :
    RowDense (if c then add_equation eq w r pairs else eq) := by
  split
  · exact add_equation_rowDense eq w r pairs h
  · exact h

theorem add_model_constraint_rowDense (field : LatticeField)
    (weights : Weights) (coordinate : List Int) (index : Int) (d : Nat)
    (h : RowDense field.eq) :
    RowDense (add_model_constraint field weights coordinate index d).eq := by
  simp only [add_model_constraint]
  split
  · apply foldl_preserves RowDense _ _ _ _
    · apply ite_add_equation_rowDense
      apply ite_add_equation_rowDense
      apply ite_add_equation_rowDense
      apply ite_add_equation_rowDense
      exact ite_add_equation_rowDense _ _ _ _ _ h
    · intro e od hp
      split
      · exact hp
      · split
        · exact hp
        · exact add_equation_rowDense _ _ _ _ hp
  · apply ite_add_equation_rowDense
    apply ite_add_equation_rowDense
    apply ite_add_equation_rowDense
    apply ite_add_equation_rowDense
    exact ite_add_equation_rowDense _ _ _ _ _ h

theorem applyOp_rowDense (field : LatticeField) (op : AssemblyOp)
    (h : RowDense field.eq) : RowDense (applyOp field op).eq := by
  cases op with
  | value pos v w => exact add_value_constraint_rowDense field pos v w h
  | gradient pos g w kernel =>
    exact add_gradient_constraint_rowDense field pos g w kernel h
  | model weights coordinate index d =>
    exact add_model_constraint_rowDense field weights coordinate index d h

/-- Claim C4: after any sequence of assembly operations (value constraints,
gradient constraints under any kernel, model constraints) starting from an
empty system, every triplet's row index is strictly less than the length of
rhs, and every integer in `[0, len rhs)` occurs as the row of some triplet. -/
theorem assembly_rowDense (sizes : List Int) (ops : List AssemblyOp) :
    RowDense (applyOps ⟨sizes, ⟨[], []⟩⟩ ops).eq := by
  have base : RowDense (⟨[], []⟩ : LinearEquation) := by
    constructor
    · intro t ht
      simp at ht
    · intro r hr
      simp at hr
  exact foldl_preserves (fun f => RowDense f.eq) applyOp ops
    (fun a b hp => applyOp_rowDense a b hp) ⟨sizes, ⟨[], []⟩⟩ base

/-! Scatter-fold machinery for `generate_error_map` (claims C6, C10). -/

theorem getD_replicate_zero (n r : Nat) : (List.replicate n (0:Rat)).getD r 0 = 0 := by
  rw [List.getD_eq_getElem?_getD, List.getElem?_replicate]
  split <;> rfl

theorem getD_map_mul_self (l : List Rat) (r : Nat) :
    (l.map (fun e => e * e)).getD r 0 = l.getD r 0 * l.getD r 0 := by
  rw [List.getD_eq_getElem?_getD, List.getD_eq_getElem?_getD, List.getElem?_map]
  cases l[r]? <;> simp

theorem sum_map_neg_rat {α : Type _} (l : List α) (g : α → Rat) :
    (l.map (fun x => -(g x))).sum = -((l.map g).sum) := by
  induction l with
  | nil => simp
  | cons a l ih => simp [ih]; ring

theorem set_getD_add_sum (l : List Rat) (k : Nat) (x : Rat) (hk : k < l.length) :
    (l.set k (l.getD k 0 + x)).sum = l.sum + x := by
  induction l generalizing k with
  | nil => simp at hk
  | cons a l ih =>
    cases k with
    | zero => simp [List.set]; ring
    | succ k =>
      simp only [List.length_cons, Nat.succ_lt_succ_iff] at hk
      simp only [List.set, List.getD_cons_succ, List.sum_cons]
      rw [ih k hk]
      ring

theorem foldl_scatter_length (key : Triplet → Nat) (c : Triplet → Prop)
    [DecidablePred c] (f : Triplet → Rat) (ts : List Triplet) :
    ∀ init : List Rat,
    (ts.foldl (fun a t =>
        if c t then a.set (key t) (a.getD (key t) 0 + f t) else a) init).length
      = init.length := by
  induction ts with
  | nil => intro init; rfl
  | cons t ts ih =>
    intro init
    simp only [List.foldl_cons]
    rw [ih]
    split <;> simp

theorem foldl_scatter_getD (key : Triplet → Nat) (c : Triplet → Prop)
    [DecidablePred c] (f : Triplet → Rat) (j : Nat) (ts : List Triplet) :
    ∀ init : List Rat, j < init.length →
    (ts.foldl (fun a t =>
        if c t then a.set (key t) (a.getD (key t) 0 + f t) else a) init).getD j 0
      = init.getD j 0 +
        ((ts.filter (fun t => decide (c t) && (key t == j))).map f).sum := by
  induction ts with
  | nil => intro init _; simp
  | cons t ts ih =>
    intro init hj
    simp only [List.foldl_cons, List.filter_cons]
    by_cases hc : c t
    · by_cases hk : key t = j
      · have hcond : (decide (c t) && (key t == j)) = true := by
          simp [hc, hk]
        rw [if_pos hcond, if_pos hc]
        have hlen : j < (init.set (key t) (init.getD (key t) 0 + f t)).length := by
          simpa using hj
        rw [ih _ hlen, hk]
        rw [List.getD_eq_getElem?_getD, List.getElem?_set_self (hk ▸ hj)]
        simp only [Option.getD_some, List.map_cons, List.sum_cons]
        rw [List.getD_eq_getElem?_getD]
        ring
      · have hcond : ¬ ((decide (c t) && (key t == j)) = true) := by
          simp [hk]
        rw [if_neg hcond, if_pos hc]
        have hlen : j < (init.set (key t) (init.getD (key t) 0 + f t)).length := by
          simpa using hj
        rw [ih _ hlen]
        rw [List.getD_eq_getElem?_getD, List.getElem?_set_ne (fun h => hk h),
          ← List.getD_eq_getElem?_getD]
    · have hcond : ¬ ((decide (c t) && (key t == j)) = true) := by
        simp [hc]
      rw [if_neg hcond, if_neg hc]
      exact ih init hj

theorem foldl_scatter_sum (key : Triplet → Nat) (c : Triplet → Prop)
    [DecidablePred c] (f : Triplet → Rat) (ts : List Triplet) :
    ∀ init : List Rat, (∀ t ∈ ts, c t → key t < init.length) →
    (ts.foldl (fun a t =>
        if c t then a.set (key t) (a.getD (key t) 0 + f t) else a) init).sum
      = init.sum + ((ts.filter (fun t => decide (c t))).map f).sum := by
  induction ts with
  | nil => intro init _; simp
  | cons t ts ih =>
    intro init hkey
    simp only [List.foldl_cons, List.filter_cons]
    by_cases hc : c t
    · have hcond : decide (c t) = true := by simp [hc]
      rw [if_pos hcond, if_pos hc]
      have hlen : ∀ u ∈ ts, c u →
          key u < (init.set (key t) (init.getD (key t) 0 + f t)).length := by
        intro u hu hcu
        simpa using hkey u (List.mem_cons_of_mem _ hu) hcu
      rw [ih _ hlen, set_getD_add_sum init (key t) (f t)
        (hkey t (List.mem_cons_self _ _) hc)]
      simp only [List.map_cons, List.sum_cons]
      ring
    · have hcond : ¬ (decide (c t) = true) := by simp [hc]
      rw [if_neg hcond, if_neg hc]
      exact ih init (fun u hu hcu => hkey u (List.mem_cons_of_mem _ hu) hcu)

theorem foldl_set_length_u (key : Triplet → Nat) (f : Triplet → Rat)
    (ts : List Triplet) :
    ∀ init : List Rat,
    (ts.foldl (fun a t => a.set (key t) (a.getD (key t) 0 + f t)) init).length
      = init.length := by
  induction ts with
  | nil => intro init; rfl
  | cons t ts ih =>
    intro init
    simp only [List.foldl_cons]
    rw [ih]
    simp

theorem foldl_set_getD_u (key : Triplet → Nat) (f : Triplet → Rat) (j : Nat)
    (ts : List Triplet) :
    ∀ init : List Rat, j < init.length →
    (ts.foldl (fun a t => a.set (key t) (a.getD (key t) 0 + f t)) init).getD j 0
      = init.getD j 0 + ((ts.filter (fun t => key t == j)).map f).sum := by
  induction ts with
  | nil => intro init _; simp
  | cons t ts ih =>
    intro init hj
    simp only [List.foldl_cons, List.filter_cons]
    by_cases hk : key t = j
    · rw [if_pos (by simp [hk])]
      have hlen : j < (init.set (key t) (init.getD (key t) 0 + f t)).length := by
        simpa using hj
      rw [ih _ hlen, hk]
      rw [List.getD_eq_getElem?_getD, List.getElem?_set_self (hk ▸ hj)]
      simp only [Option.getD_some, List.map_cons, List.sum_cons]
      rw [List.getD_eq_getElem?_getD]
      ring
    · rw [if_neg (by simp [hk])]
      have hlen : j < (init.set (key t) (init.getD (key t) 0 + f t)).length := by
        simpa using hj
      rw [ih _ hlen]
      rw [List.getD_eq_getElem?_getD, List.getElem?_set_ne (fun h => hk h),
        ← List.getD_eq_getElem?_getD]

theorem errorRowEnergies_length (triplets : List Triplet) (rhs : List Rat) :
    (errorRowEnergies triplets rhs).length = rhs.length := by
  unfold errorRowEnergies
  rw [foldl_set_length_u]
  simp

theorem errorRowEnergies_getD (triplets : List Triplet) (rhs : List Rat)
    (r : Nat) (hr : r < rhs.length) :
    (errorRowEnergies triplets rhs).getD r 0
      = ((triplets.filter (fun t => t.row == r)).map
          (fun t => t.value * t.value)).sum := by
  unfold errorRowEnergies
  rw [foldl_set_getD_u (fun t => t.row) (fun t => t.value * t.value) r triplets _
    (by simpa using hr), getD_replicate_zero]
  ring

theorem errorRowEnergies_nonneg (triplets : List Triplet) (rhs : List Rat)
    (r : Nat) : 0 ≤ (errorRowEnergies triplets rhs).getD r 0 := by
  by_cases hr : r < rhs.length
  · rw [errorRowEnergies_getD triplets rhs r hr]
    apply List.sum_nonneg
    intro x hx
    obtain ⟨u, hu, rfl⟩ := List.mem_map.mp hx
    exact mul_self_nonneg _
  · have hlen := errorRowEnergies_length triplets rhs
    rw [List.getD_eq_getElem?_getD, List.getElem?_eq_none (by omega)]
    rfl

theorem errorRowSquares_getD (triplets : List Triplet) (solution rhs : List Rat)
    (r : Nat) : (errorRowSquares triplets solution rhs).getD r 0
      = (errorRowErrors triplets solution rhs).getD r 0 *
        (errorRowErrors triplets solution rhs).getD r 0 :=
  getD_map_mul_self _ _

/-- `generate_error_map` written with its three folds named. -/
theorem generate_error_map_eq (triplets : List Triplet)
    (solution rhs : List Rat) :
    generate_error_map triplets solution rhs
      = triplets.foldl (fun a t =>
          if (errorRowEnergies triplets rhs).getD t.row 0 ≠ 0 then
            a.set t.col.toNat (a.getD t.col.toNat 0 +
              (t.value * t.value) / (errorRowEnergies triplets rhs).getD t.row 0 *
                (errorRowSquares triplets solution rhs).getD t.row 0)
          else a)
          (List.replicate solution.length 0) := rfl

/-- Claim C10: for any triplets, rhs and solution with in-range rows and
columns, `generate_error_map` returns a vector of the same length as the
solution vector, all of whose entries are nonnegative. -/
theorem generate_error_map_shape_nonneg (triplets : List Triplet)
    (solution rhs : List Rat)
    (hrow : ∀ t ∈ triplets, t.row < rhs.length)
    (hcol : ∀ t ∈ triplets, t.col.toNat < solution.length) :
    (generate_error_map triplets solution rhs).length = solution.length ∧
    ∀ x ∈ generate_error_map triplets solution rhs, 0 ≤ x := by
  have hlen : (generate_error_map triplets solution rhs).length
      = solution.length := by
    rw [generate_error_map_eq]
    rw [foldl_scatter_length (fun t => t.col.toNat)
      (fun t => (errorRowEnergies triplets rhs).getD t.row 0 ≠ 0)
      (fun t => (t.value * t.value) / (errorRowEnergies triplets rhs).getD t.row 0 *
        (errorRowSquares triplets solution rhs).getD t.row 0) triplets
      (List.replicate solution.length 0)]
    simp
  refine ⟨hlen, ?_⟩
  intro x hx
  obtain ⟨j, hj, hxe⟩ := List.mem_iff_getElem.mp hx
  have hjs : j < solution.length := by rw [← hlen]; exact hj
  have hxd : x = (generate_error_map triplets solution rhs).getD j 0 := by
    rw [List.getD_eq_getElem?_getD, List.getElem?_eq_getElem hj, hxe]
    rfl
  rw [hxd, generate_error_map_eq]
  rw [foldl_scatter_getD (fun t => t.col.toNat)
    (fun t => (errorRowEnergies triplets rhs).getD t.row 0 ≠ 0)
    (fun t => (t.value * t.value) / (errorRowEnergies triplets rhs).getD t.row 0 *
      (errorRowSquares triplets solution rhs).getD t.row 0) j triplets
    (List.replicate solution.length 0) (by simpa using hjs)]
  rw [getD_replicate_zero]
  have hnn : ∀ y ∈ (List.filter (fun t =>
      decide ((errorRowEnergies triplets rhs).getD t.row 0 ≠ 0) &&
        (t.col.toNat == j)) triplets).map (fun t =>
        (t.value * t.value) / (errorRowEnergies triplets rhs).getD t.row 0 *
          (errorRowSquares triplets solution rhs).getD t.row 0), 0 ≤ y := by
    intro y hy
    obtain ⟨u, hu, rfl⟩ := List.mem_map.mp hy
    apply mul_nonneg
    · apply div_nonneg (mul_self_nonneg _)
      exact errorRowEnergies_nonneg triplets rhs u.row
    · rw [errorRowSquares_getD]
      exact mul_self_nonneg _
  have := List.sum_nonneg hnn
  linarith

/-- Witness for C10: the S6 scenario: triplets `[(0,0,1),(0,1,1)]`,
rhs `[2]`, solution `[0,0]`. -/
theorem generate_error_map_shape_nonneg_witness :
    (∀ t ∈ [Triplet.mk 0 0 1, Triplet.mk 0 1 1], t.row < ([2] : List Rat).length) ∧
    (∀ t ∈ [Triplet.mk 0 0 1, Triplet.mk 0 1 1],
      t.col.toNat < ([0, 0] : List Rat).length) ∧
    ((generate_error_map [Triplet.mk 0 0 1, Triplet.mk 0 1 1] [0, 0] [2]).length
        = ([0, 0] : List Rat).length ∧
     ∀ x ∈ generate_error_map [Triplet.mk 0 0 1, Triplet.mk 0 1 1] [0, 0] [2],
       0 ≤ x) :=
  ⟨by decide, by decide,
    generate_error_map_shape_nonneg [Triplet.mk 0 0 1, Triplet.mk 0 1 1] [0, 0]
      [2] (by decide) (by decide)⟩

theorem sum_map_range_ite (n k : Nat) (x : Rat) (g : Nat → Rat) (hk : k < n) :
    ((List.range n).map (fun r => if k = r then x + g r else g r)).sum
      = x + ((List.range n).map g).sum := by
  induction n with
  | zero => omega
  | succ n ih =>
    rw [List.range_succ]
    simp only [List.map_append, List.sum_append, List.map_cons, List.map_nil,
      List.sum_cons, List.sum_nil]
    by_cases hkn : k = n
    · subst hkn
      rw [if_pos rfl]
      have hcong : ∀ r ∈ List.range k,
          (if k = r then x + g r else g r) = g r := by
        intro r hr
        rw [if_neg]
        have := List.mem_range.mp hr
        omega
      rw [List.map_congr_left hcong]
      ring
    · have hklt : k < n := by omega
      rw [if_neg hkn, ih hklt]
      ring

theorem sum_map_group (ts : List Triplet) (key : Triplet → Nat)
    (f : Triplet → Rat) (n : Nat) (h : ∀ t ∈ ts, key t < n) :
    (ts.map f).sum
      = ((List.range n).map (fun r =>
          ((ts.filter (fun t => key t == r)).map f).sum)).sum := by
  induction ts with
  | nil => simp
  | cons t ts ih =>
    simp only [List.map_cons, List.sum_cons]
    rw [ih (fun u hu => h u (List.mem_cons_of_mem _ hu))]
    have hcong : ∀ r ∈ List.range n,
        ((List.filter (fun u => key u == r) (t :: ts)).map f).sum
          = if key t = r then
              f t + ((ts.filter (fun u => key u == r)).map f).sum
            else ((ts.filter (fun u => key u == r)).map f).sum := by
      intro r _
      rw [List.filter_cons]
      by_cases hk : key t = r
      · rw [if_pos (by simp [hk]), if_pos hk]
        simp
      · rw [if_neg (by simp [hk]), if_neg hk]
    rw [List.map_congr_left hcong,
      sum_map_range_ite n (key t) (f t) _ (h t (List.mem_cons_self _ _))]

theorem errorRowErrors_getD (triplets : List Triplet) (solution rhs : List Rat)
    (r : Nat) (hr : r < rhs.length) :
    (errorRowErrors triplets solution rhs).getD r 0
      = rowResidualList triplets solution rhs r := by
  unfold errorRowErrors
  rw [List.foldl_ext _ (fun (a : List Rat) (t : Triplet) =>
    a.set t.row (a.getD t.row 0 + (-(solution.getD t.col.toNat 0 * t.value))))
    rhs (fun a b _ => by rw [sub_eq_add_neg])]
  rw [foldl_set_getD_u (fun t => t.row)
    (fun t => -(solution.getD t.col.toNat 0 * t.value)) r triplets rhs hr]
  rw [sum_map_neg_rat]
  unfold rowResidualList
  ring

theorem errorRowEnergies_pos (triplets : List Triplet) (solution rhs : List Rat)
    (hcover : ∀ r < rhs.length, ∃ t ∈ triplets, t.row = r ∧ t.value ≠ 0)
    (r : Nat) (hr : r < rhs.length) :
    0 < (errorRowEnergies triplets rhs).getD r 0 := by
  rw [errorRowEnergies_getD triplets rhs r hr]
  obtain ⟨t0, ht0, hrow0, hval0⟩ := hcover r hr
  have hmem : (t0.value * t0.value) ∈
      (triplets.filter (fun t => t.row == r)).map (fun t => t.value * t.value) := by
    apply List.mem_map_of_mem
    rw [List.mem_filter]
    exact ⟨ht0, by simp [hrow0]⟩
  have hnn : ∀ x ∈ (triplets.filter (fun t => t.row == r)).map
      (fun t => t.value * t.value), 0 ≤ x := by
    intro x hx
    obtain ⟨u, hu, rfl⟩ := List.mem_map.mp hx
    exact mul_self_nonneg _
  have hle := List.single_le_sum hnn _ hmem
  have hpos : 0 < t0.value * t0.value := mul_self_pos.mpr hval0
  linarith

/-- Claim C6: whenever every row of rhs has at least one triplet with
nonzero coefficient (and rows and columns are in range), the sum of the
heatmap returned by `generate_error_map` equals the sum over all rows of
the squared residual `rhs[r] − Σ v·x[c]`, in exact arithmetic. -/
theorem generate_error_map_conservation (triplets : List Triplet)
    (solution rhs : List Rat)
    (hrow : ∀ t ∈ triplets, t.row < rhs.length)
    (hcol : ∀ t ∈ triplets, t.col.toNat < solution.length)
    (hcover : ∀ r < rhs.length, ∃ t ∈ triplets, t.row = r ∧ t.value ≠ 0) :
    (generate_error_map triplets solution rhs).sum
      = ((List.range rhs.length).map (fun r =>
          rowResidualList triplets solution rhs r *
          rowResidualList triplets solution rhs r)).sum := by
  have hc_all : ∀ t ∈ triplets,
      (errorRowEnergies triplets rhs).getD t.row 0 ≠ 0 := by
    intro t ht
    exact ne_of_gt (errorRowEnergies_pos triplets solution rhs hcover t.row
      (hrow t ht))
  rw [generate_error_map_eq]
  rw [foldl_scatter_sum (fun t => t.col.toNat)
    (fun t => (errorRowEnergies triplets rhs).getD t.row 0 ≠ 0)
    (fun t => (t.value * t.value) / (errorRowEnergies triplets rhs).getD t.row 0 *
      (errorRowSquares triplets solution rhs).getD t.row 0) triplets
    (List.replicate solution.length 0)
    (fun t ht _ => by simpa using hcol t ht)]
  rw [List.filter_eq_self.mpr (fun t ht => by simpa using hc_all t ht)]
  rw [sum_map_group triplets (fun t => t.row)
    (fun t => (t.value * t.value) / (errorRowEnergies triplets rhs).getD t.row 0 *
      (errorRowSquares triplets solution rhs).getD t.row 0) rhs.length hrow]
  have hcong : ∀ r ∈ List.range rhs.length,
      ((triplets.filter (fun t => t.row == r)).map
        (fun t => (t.value * t.value) /
          (errorRowEnergies triplets rhs).getD t.row 0 *
          (errorRowSquares triplets solution rhs).getD t.row 0)).sum
        = rowResidualList triplets solution rhs r *
          rowResidualList triplets solution rhs r := by
    intro r hrn
    have hr : r < rhs.length := List.mem_range.mp hrn
    have hfstep : ∀ t ∈ triplets.filter (fun t => t.row == r),
        (t.value * t.value) / (errorRowEnergies triplets rhs).getD t.row 0 *
          (errorRowSquares triplets solution rhs).getD t.row 0
        = t.value * t.value *
            ((errorRowSquares triplets solution rhs).getD r 0 /
             (errorRowEnergies triplets rhs).getD r 0) := by
      intro t ht
      rw [List.mem_filter] at ht
      have hteq : t.row = r := by simpa using ht.2
      rw [hteq]
      ring
    rw [List.map_congr_left hfstep, List.sum_map_mul_right,
      ← errorRowEnergies_getD triplets rhs r hr]
    have hne : (errorRowEnergies triplets rhs).getD r 0 ≠ 0 :=
      ne_of_gt (errorRowEnergies_pos triplets solution rhs hcover r hr)
    rw [errorRowSquares_getD, errorRowErrors_getD triplets solution rhs r hr]
    rw [mul_comm, div_mul_cancel₀ _ hne]
  rw [List.map_congr_left hcong]
  simp

/-- Witness for C6: the S6 scenario, where the heatmap sums to 4 and the
single residual is 2. -/
theorem generate_error_map_conservation_witness :
    (∀ t ∈ [Triplet.mk 0 0 1, Triplet.mk 0 1 1], t.row < ([2] : List Rat).length) ∧
    (∀ t ∈ [Triplet.mk 0 0 1, Triplet.mk 0 1 1],
      t.col.toNat < ([0, 0] : List Rat).length) ∧
    (∀ r < ([2] : List Rat).length,
      ∃ t ∈ [Triplet.mk 0 0 1, Triplet.mk 0 1 1], t.row = r ∧ t.value ≠ 0) ∧
    (generate_error_map [Triplet.mk 0 0 1, Triplet.mk 0 1 1] [0, 0] [2]).sum
      = ((List.range ([2] : List Rat).length).map (fun r =>
          rowResidualList [Triplet.mk 0 0 1, Triplet.mk 0 1 1] [0, 0] [2] r *
          rowResidualList [Triplet.mk 0 0 1, Triplet.mk 0 1 1] [0, 0] [2] r)).sum :=
  ⟨by decide, by decide, by decide,
    generate_error_map_conservation [Triplet.mk 0 0 1, Triplet.mk 0 1 1] [0, 0]
      [2] (by decide) (by decide) (by decide)⟩

/-! Claim C8: the CellEdges gradient kernel. -/

theorem foldl_append_blocks (T : Nat → Nat → List Triplet) (R : Nat → Rat)
    (n : Nat) (e0 : LinearEquation) :
    (List.range n).foldl (fun e d =>
      { triplets := e.triplets ++ T d e.rhs.length,
        rhs := e.rhs ++ [R d] }) e0
    = { triplets := e0.triplets ++
          ((List.range n).map (fun d => T d (e0.rhs.length + d))).flatten,
        rhs := e0.rhs ++ (List.range n).map R } := by
  induction n with
  | zero =>
    cases e0
    simp
  | succ n ih =>
    rw [List.range_succ, List.foldl_append, ih]
    simp only [List.foldl_cons, List.foldl_nil, List.map_append,
      List.flatten_append, List.map_cons, List.map_nil, List.flatten_cons,
      List.flatten_nil, List.append_nil, List.length_append, List.length_map,
      List.length_range]
    rw [List.append_assoc, List.append_assoc]

/-- Claim C8: for every in-bounds position (`cell_index` succeeds) and
nonzero weight w, the CellEdges kernel appends, for each dimension d, one
new row containing exactly 2^N triplets, one per cell corner
`idx + Σ_a strides[a]·bit_a(c)`, with coefficient `±(w·2/2^N)` (sign `+`
when bit d of the corner is set) and rhs entry `w·g[d]`. -/
theorem add_gradient_constraint_cell_edges (field : LatticeField)
    (pos g : List Rat) (w : Rat) (hw : w ≠ 0)
    (hidx : 0 ≤ cell_index field pos) :
    (add_gradient_constraint field pos g w GradientKernel.kCellEdges).2 = true ∧
    (add_gradient_constraint field pos g w GradientKernel.kCellEdges).1.eq.triplets
      = field.eq.triplets ++
        ((List.range field.sizes.length).map (fun d =>
          (List.range (2 ^ field.sizes.length)).map (fun corner =>
            Triplet.mk (field.eq.rhs.length + d)
              (cell_index field pos + corner_offset field.strides corner)
              ((if (corner >>> d) % 2 = 1 then (1:Rat) else -1) *
                (w * 2 / ((2 ^ field.sizes.length : Nat) : Rat)))))).flatten ∧
    (add_gradient_constraint field pos g w GradientKernel.kCellEdges).1.eq.rhs
      = field.eq.rhs ++ (List.range field.sizes.length).map
          (fun d => w * g.getD d 0) := by
  have hres : add_gradient_constraint field pos g w GradientKernel.kCellEdges
      = ({ field with eq :=
          { triplets := field.eq.triplets ++
              ((List.range field.sizes.length).map (fun d =>
                (List.range (2 ^ field.sizes.length)).map (fun corner =>
                  Triplet.mk (field.eq.rhs.length + d)
                    (cell_index field pos + corner_offset field.strides corner)
                    ((if (corner >>> d) % 2 = 1 then (1:Rat) else -1) *
                      (w * 2 / ((2 ^ field.sizes.length : Nat) : Rat)))))).flatten,
            rhs := field.eq.rhs ++ (List.range field.sizes.length).map
              (fun d => w * g.getD d 0) } }, true) := by
    simp only [add_gradient_constraint]
    rw [if_neg hw, if_neg (not_lt.mpr hidx)]
    rw [foldl_append_blocks (fun d row =>
      (List.range (2 ^ field.sizes.length)).map (fun corner =>
        Triplet.mk row
          (cell_index field pos + corner_offset field.strides corner)
          ((if (corner >>> d) % 2 = 1 then (1:Rat) else -1) *
            (w * 2 / ((2 ^ field.sizes.length : Nat) : Rat)))))
      (fun d => w * g.getD d 0) field.sizes.length field.eq]
  rw [hres]
  exact ⟨rfl, rfl, rfl⟩

/-- Witness for C8: the S5 scenario (`sizes=[3,3]`, `pos=[1,1]`,
`g=[1,0]`, `w=1`). -/
theorem add_gradient_constraint_cell_edges_witness :
    (1 : Rat) ≠ 0 ∧
    0 ≤ cell_index ⟨[3,3], ⟨[], []⟩⟩ [1,1] ∧
    ((add_gradient_constraint ⟨[3,3], ⟨[], []⟩⟩ [1,1] [1,0] 1
        GradientKernel.kCellEdges).2 = true ∧
     (add_gradient_constraint ⟨[3,3], ⟨[], []⟩⟩ [1,1] [1,0] 1
        GradientKernel.kCellEdges).1.eq.triplets
       = ([] : List Triplet) ++
         ((List.range (2:Nat)).map (fun d =>
           (List.range (2 ^ (2:Nat))).map (fun corner =>
             Triplet.mk (([] : List Rat).length + d)
               (cell_index ⟨[3,3], ⟨[], []⟩⟩ [1,1] +
                 corner_offset (LatticeField.mk [3,3] ⟨[], []⟩).strides corner)
               ((if (corner >>> d) % 2 = 1 then (1:Rat) else -1) *
                 (1 * 2 / ((2 ^ (2:Nat) : Nat) : Rat)))))).flatten ∧
     (add_gradient_constraint ⟨[3,3], ⟨[], []⟩⟩ [1,1] [1,0] 1
        GradientKernel.kCellEdges).1.eq.rhs
       = ([] : List Rat) ++ (List.range (2:Nat)).map
           (fun d => 1 * ([1,0] : List Rat).getD d 0)) :=
  ⟨by decide, by with_unfolding_all decide,
    add_gradient_constraint_cell_edges ⟨[3,3], ⟨[], []⟩⟩ [1,1] [1,0] 1
      (by decide) (by with_unfolding_all decide)⟩

/-! Claim C7, stage 1: lattice index arithmetic. -/

theorem stridesOf_go_scale (a : Int) (sizes : List Int) :
    ∀ b : Int, stridesOf_go (a * b) sizes
      = (stridesOf_go b sizes).map (fun x => a * x) := by
  induction sizes with
  | nil => intro b; rfl
  | cons s rest ih =>
    intro b
    simp only [stridesOf_go, List.map_cons]
    rw [mul_assoc, ih (b * s)]

theorem getD_map_mul_zero (l : List Int) (a : Int) (d : Nat) :
    (l.map (fun x => a * x)).getD d 0 = a * l.getD d 0 := by
  rw [List.getD_eq_getElem?_getD, List.getD_eq_getElem?_getD, List.getElem?_map]
  cases l[d]? <;> simp

theorem strideAt_zero (s : Int) (ss : List Int) :
    (stridesOf (s :: ss)).getD 0 0 = 1 := rfl

theorem strideAt_succ (s : Int) (ss : List Int) (d : Nat) :
    (stridesOf (s :: ss)).getD (d + 1) 0 = s * (stridesOf ss).getD d 0 := by
  have h1 : stridesOf (s :: ss) = 1 :: stridesOf_go (1 * s) ss := rfl
  rw [h1, List.getD_cons_succ]
  have h2 : (1 : Int) * s = s * 1 := by ring
  rw [h2, stridesOf_go_scale s ss 1, getD_map_mul_zero]
  rfl

theorem coord_from_index_go_length (sizes : List Int) :
    ∀ index, (coord_from_index_go sizes index).length = sizes.length := by
  induction sizes with
  | nil => intro index; rfl
  | cons s rest ih =>
    intro index
    simp only [coord_from_index_go, List.length_cons, ih]

theorem sizesProd_pos (sizes : List Int) (h : ∀ s ∈ sizes, 0 < s) :
    0 < sizesProd sizes := by
  induction sizes with
  | nil => norm_num [sizesProd]
  | cons s rest ih =>
    simp only [sizesProd]
    have hs := h s (List.mem_cons_self _ _)
    have hrest := ih (fun u hu => h u (List.mem_cons_of_mem _ hu))
    positivity

theorem foldl_mul_eq_sizesProd (sizes : List Int) :
    ∀ a : Int, sizes.foldl (fun x s => x * s) a = a * sizesProd sizes := by
  induction sizes with
  | nil => intro a; simp [sizesProd]
  | cons s rest ih =>
    intro a
    simp only [List.foldl_cons, sizesProd, ih (a * s)]
    ring

theorem decode_encode (sizes coords : List Int)
    (h : List.Forall₂ (fun c s => 0 ≤ c ∧ c < s) coords sizes) :
    coord_from_index_go sizes (indexEncode sizes coords) = coords := by
  induction h with
  | nil => rfl
  | @cons c s cs ss hcs hrest ih =>
    obtain ⟨hc0, hcs'⟩ := hcs
    have hs : (0:Int) < s := lt_of_le_of_lt hc0 hcs'
    simp only [indexEncode, coord_from_index_go]
    have hmod : (c + s * indexEncode ss cs) % s = c := by
      rw [Int.add_mul_emod_self_left, Int.emod_eq_of_lt hc0 hcs']
    have hdiv : (c + s * indexEncode ss cs) / s = indexEncode ss cs := by
      rw [Int.add_mul_ediv_left _ _ (by omega : s ≠ 0),
        Int.ediv_eq_zero_of_lt hc0 hcs']
      omega
    rw [hmod, hdiv, ih]

theorem encode_decode (sizes : List Int) (hsz : ∀ s ∈ sizes, 0 < s) :
    ∀ index : Int, 0 ≤ index → index < sizesProd sizes →
    indexEncode sizes (coord_from_index_go sizes index) = index ∧
    List.Forall₂ (fun c s => 0 ≤ c ∧ c < s)
      (coord_from_index_go sizes index) sizes := by
  induction sizes with
  | nil =>
    intro index h0 hlt
    simp only [sizesProd] at hlt
    have : index = 0 := by omega
    subst this
    exact ⟨rfl, List.Forall₂.nil⟩
  | cons s rest ih =>
    intro index h0 hlt
    have hs : (0:Int) < s := hsz s (List.mem_cons_self _ _)
    have hrest : ∀ u ∈ rest, (0:Int) < u :=
      fun u hu => hsz u (List.mem_cons_of_mem _ hu)
    have hPrest : 0 < sizesProd rest := sizesProd_pos rest hrest
    simp only [coord_from_index_go, indexEncode, sizesProd] at *
    have hm0 : 0 ≤ index % s := Int.emod_nonneg index (by omega)
    have hms : index % s < s := Int.emod_lt_of_pos index hs
    have hd0 : 0 ≤ index / s := Int.ediv_nonneg h0 (by omega)
    have hdlt : index / s < sizesProd rest := by
      rw [Int.ediv_lt_iff_lt_mul hs]
      calc index < s * sizesProd rest := hlt
      _ = sizesProd rest * s := by ring
    obtain ⟨henc, hfa⟩ := ih hrest (index / s) hd0 hdlt
    refine ⟨?_, List.Forall₂.cons ⟨hm0, hms⟩ hfa⟩
    rw [henc]
    exact Int.emod_add_ediv index s

theorem indexEncode_bump (j : Nat) :
    ∀ (sizes coords : List Int) (d : Nat),
    List.Forall₂ (fun c s => 0 ≤ c ∧ c < s) coords sizes →
    d < sizes.length →
    coords.getD d 0 + j < sizes.getD d 0 →
    (indexEncode sizes coords + j * (stridesOf sizes).getD d 0
      = indexEncode sizes (coords.set d (coords.getD d 0 + j))
    ∧ List.Forall₂ (fun c s => 0 ≤ c ∧ c < s)
        (coords.set d (coords.getD d 0 + j)) sizes) := by
  intro sizes coords d
  induction d generalizing sizes coords with
  | zero =>
    intro hf hd hlt
    cases hf with
    | nil => simp at hd
    | @cons c s cs ss hcs hrest =>
      simp only [List.getD_cons_zero] at hlt
      simp only [indexEncode, strideAt_zero, List.set, List.getD_cons_zero]
      constructor
      · ring
      · exact List.Forall₂.cons ⟨by omega, hlt⟩ hrest
  | succ d ih =>
    intro hf hd hlt
    cases hf with
    | nil => simp at hd
    | @cons c s cs ss hcs hrest =>
      simp only [List.length_cons, Nat.succ_lt_succ_iff] at hd
      simp only [List.getD_cons_succ] at hlt
      obtain ⟨hbump, hfa⟩ := ih ss cs hrest hd hlt
      simp only [indexEncode, strideAt_succ, List.set, List.getD_cons_succ]
      constructor
      · rw [← hbump]
        ring
      · exact List.Forall₂.cons hcs hfa

/-! Claim C7, stage 2: polynomials sampled on the lattice and the
finite-difference stencils that annihilate them. -/

theorem evalMono_cons (c : Int) (cs : List Int) (e : Nat) (es : List Nat) :
    evalMono (c :: cs) (e :: es) = (c : Rat) ^ e * evalMono cs es := by
  simp [evalMono]

theorem evalP_cons (m : Rat × List Nat) (ms : List (Rat × List Nat))
    (coords : List Int) :
    evalP (m :: ms) coords = m.1 * evalMono coords m.2 + evalP ms coords := by
  simp [evalP]

theorem evalMono_set_factor (coords : List Int) :
    ∀ (es : List Nat) (d : Nat) (v : Int), d < coords.length → d < es.length →
    evalMono (coords.set d v) es
      = evalMono (coords.set d 1) es * (v : Rat) ^ (es.getD d 0) := by
  induction coords with
  | nil => intro es d v hd _; simp at hd
  | cons c cs ih =>
    intro es d v hd hde
    cases es with
    | nil => simp at hde
    | cons e ees =>
      cases d with
      | zero =>
        simp only [List.set, List.getD_cons_zero, evalMono_cons]
        push_cast
        ring
      | succ d =>
        simp only [List.set, List.getD_cons_succ, evalMono_cons]
        simp only [List.length_cons, Nat.succ_lt_succ_iff] at hd hde
        rw [ih ees d v hd hde]
        ring

theorem getD_le_sum (es : List Nat) : ∀ d, es.getD d 0 ≤ es.sum := by
  induction es with
  | nil => intro d; simp
  | cons e ees ih =>
    intro d
    cases d with
    | zero => simp
    | succ d =>
      simp only [List.getD_cons_succ, List.sum_cons]
      have := ih d
      omega

theorem sum_map_add_split {α : Type _} (l : List α) (f g : α → Rat) :
    (l.map (fun a => f a + g a)).sum = (l.map f).sum + (l.map g).sum := by
  induction l with
  | nil => simp
  | cons a l ih => simp [ih]; ring

theorem stencil_vanish (k : Nat) (co : Nat → Rat)
    (hkill : ∀ e < k, ∀ q : Rat,
      ((List.range (k + 1)).map (fun j => co j * (q + j) ^ e)).sum = 0)
    (ms : List (Rat × List Nat)) (coords : List Int) (d : Nat)
    (hdeg : ∀ m ∈ ms, m.2.sum < k)
    (hmlen : ∀ m ∈ ms, d < m.2.length)
    (hdc : d < coords.length) :
    ((List.range (k + 1)).map (fun j =>
      co j * evalP ms (coords.set d (coords.getD d 0 + j)))).sum = 0 := by
  induction ms with
  | nil => simp [evalP]
  | cons m ms ih =>
    have hdm : d < m.2.length := hmlen m (List.mem_cons_self _ _)
    have he : m.2.getD d 0 < k :=
      lt_of_le_of_lt (getD_le_sum m.2 d) (hdeg m (List.mem_cons_self _ _))
    have hsplit : ∀ j ∈ List.range (k + 1),
        co j * evalP (m :: ms) (coords.set d (coords.getD d 0 + j))
        = (m.1 * evalMono (coords.set d 1) m.2) *
            (co j * (((coords.getD d 0 : Int) : Rat) + j) ^ (m.2.getD d 0))
          + co j * evalP ms (coords.set d (coords.getD d 0 + j)) := by
      intro j _
      rw [evalP_cons, evalMono_set_factor coords m.2 d _ hdc hdm]
      push_cast
      ring
    rw [List.map_congr_left hsplit, sum_map_add_split, List.sum_map_mul_left,
      hkill (m.2.getD d 0) he, ih (fun u hu => hdeg u (List.mem_cons_of_mem _ hu))
        (fun u hu => hmlen u (List.mem_cons_of_mem _ hu))]
    ring

theorem kill_1 : ∀ e < 1, ∀ q : Rat,
    ((List.range 2).map (fun j =>
      (if j = 0 then (-1:Rat) else 1) * (q + j) ^ e)).sum = 0 := by
  intro e he q
  interval_cases e
  simp [List.range_succ]

theorem kill_2 : ∀ e < 2, ∀ q : Rat,
    ((List.range 3).map (fun j =>
      (if j = 0 then (1:Rat) else if j = 1 then -2 else 1) * (q + j) ^ e)).sum
      = 0 := by
  intro e he q
  interval_cases e <;> simp [List.range_succ] <;> push_cast <;> ring

theorem kill_3 : ∀ e < 3, ∀ q : Rat,
    ((List.range 4).map (fun j =>
      (if j = 0 then (1:Rat) else if j = 1 then -3 else if j = 2 then 3
        else -1) * (q + j) ^ e)).sum = 0 := by
  intro e he q
  interval_cases e <;> simp [List.range_succ] <;> push_cast <;> ring

theorem kill_4 : ∀ e < 4, ∀ q : Rat,
    ((List.range 5).map (fun j =>
      (if j = 0 then (1:Rat) else if j = 1 then -4 else if j = 2 then 6
        else if j = 3 then -4 else 1) * (q + j) ^ e)).sum = 0 := by
  intro e he q
  interval_cases e <;> simp [List.range_succ] <;> push_cast <;> ring

/-! Claim C7, stage 3: zero residual is preserved by `add_equation` when
the appended equation itself has zero residual against `x`. -/

theorem getD_append_left_rat (l1 l2 : List Rat) (r : Nat) (h : r < l1.length) :
    (l1 ++ l2).getD r 0 = l1.getD r 0 := by
  rw [List.getD_eq_getElem?_getD, List.getD_eq_getElem?_getD,
    List.getElem?_append_left h]

theorem getD_concat_self (l : List Rat) (a : Rat) :
    (l ++ [a]).getD l.length 0 = a := by
  rw [List.getD_eq_getElem?_getD, List.getElem?_concat_length]
  rfl

theorem sum_filter_nonzero_pairs (pairs : List LinearEquationPair)
    (g : LinearEquationPair → Rat) (hg : ∀ p, p.value = 0 → g p = 0) :
    ((pairs.filter (fun p => p.value ≠ 0)).map g).sum = (pairs.map g).sum := by
  induction pairs with
  | nil => rfl
  | cons p pairs ih =>
    rw [List.filter_cons]
    by_cases hp : p.value = 0
    · rw [if_neg (by simp [hp])]
      simp only [List.map_cons, List.sum_cons, ih, hg p hp]
      ring
    · rw [if_pos (by simp [hp])]
      simp only [List.map_cons, List.sum_cons, ih]

theorem add_equation_goodRes (eq : LinearEquation) (w rhsv : Rat)
    (pairs : List LinearEquationPair) (x : Int → Rat)
    (hres : (pairs.map (fun p => p.value * x p.column)).sum = rhsv)
    (h : GoodRes eq x) : GoodRes (add_equation eq w rhsv pairs) x := by
  simp only [add_equation]
  split
  · exact h
  split
  · exact h
  constructor
  · intro t ht
    simp only [List.mem_append, List.mem_map] at ht
    simp only [List.length_append, List.length_cons, List.length_nil]
    rcases ht with ht | ⟨p, hp, hteq⟩
    · have := h.1 t ht
      omega
    · rw [← hteq]
      dsimp only
      omega
  · intro r hr
    simp only [List.length_append, List.length_cons, List.length_nil] at hr
    unfold rowResidual
    dsimp only
    rw [List.filter_append]
    rcases Nat.lt_or_ge r eq.rhs.length with hlt | hge
    · rw [getD_append_left_rat _ _ r hlt]
      have hfil2 : ((pairs.filter (fun p => p.value ≠ 0)).map
          (fun p => Triplet.mk eq.rhs.length p.column (p.value * w))).filter
            (fun t => t.row == r) = [] := by
        rw [List.filter_eq_nil_iff]
        intro t ht
        simp only [List.mem_map] at ht
        obtain ⟨p, hp, hteq⟩ := ht
        rw [← hteq]
        simp
        omega
      rw [hfil2, List.append_nil]
      have := h.2 r hlt
      unfold rowResidual at this
      exact this
    · have hreq : r = eq.rhs.length := by omega
      subst hreq
      rw [getD_concat_self]
      have hfil1 : eq.triplets.filter (fun t => t.row == eq.rhs.length) = [] := by
        rw [List.filter_eq_nil_iff]
        intro t ht
        have := h.1 t ht
        simp
        omega
      have hfil2 : ((pairs.filter (fun p => p.value ≠ 0)).map
          (fun p => Triplet.mk eq.rhs.length p.column (p.value * w))).filter
            (fun t => t.row == eq.rhs.length)
          = (pairs.filter (fun p => p.value ≠ 0)).map
              (fun p => Triplet.mk eq.rhs.length p.column (p.value * w)) := by
        rw [List.filter_eq_self]
        intro t ht
        simp only [List.mem_map] at ht
        obtain ⟨p, hp, hteq⟩ := ht
        rw [← hteq]
        simp
      rw [hfil1, hfil2, List.nil_append, List.map_map]
      have hcomp : ((fun t : Triplet => t.value * x t.col) ∘
          (fun p : LinearEquationPair =>
            Triplet.mk eq.rhs.length p.column (p.value * w)))
          = fun p => p.value * w * x p.column := rfl
      rw [hcomp]
      rw [sum_filter_nonzero_pairs pairs _ (fun p hp => by rw [hp]; ring)]
      have hpull : pairs.map (fun p => p.value * w * x p.column)
          = pairs.map (fun p => w * (p.value * x p.column)) := by
        apply List.map_congr_left
        intro p _
        ring
      rw [hpull, List.sum_map_mul_left, hres]
      ring

/-! Claim C7, stage 4: moving j steps along dimension d from an in-range
linear index lands on the bumped coordinate, and each finite-difference
block therefore has zero residual on sampled polynomials. -/

theorem decode_bump (sizes : List Int) (hsz : ∀ s ∈ sizes, 0 < s)
    (index : Int) (h0 : 0 ≤ index) (hidx : index < sizesProd sizes)
    (d : Nat) (hd : d < sizes.length) (j : Nat)
    (hj : (coord_from_index_go sizes index).getD d 0 + j < sizes.getD d 0) :
    coord_from_index_go sizes (index + j * (stridesOf sizes).getD d 0)
      = (coord_from_index_go sizes index).set d
          ((coord_from_index_go sizes index).getD d 0 + j) := by
  obtain ⟨henc, hfa⟩ := encode_decode sizes hsz index h0 hidx
  obtain ⟨hbump, hfa'⟩ := indexEncode_bump j sizes _ d hfa hd hj
  have h1 : index + j * (stridesOf sizes).getD d 0
      = indexEncode sizes ((coord_from_index_go sizes index).set d
          ((coord_from_index_go sizes index).getD d 0 + j)) := by
    rw [← hbump, henc]
  rw [h1]
  exact decode_encode sizes _ hfa'

theorem block_res_zero (sizes : List Int) (hsz : ∀ s ∈ sizes, 0 < s)
    (ms : List (Rat × List Nat)) (k : Nat) (co : Nat → Rat)
    (hkill : ∀ e < k, ∀ q : Rat,
      ((List.range (k + 1)).map (fun j => co j * (q + j) ^ e)).sum = 0)
    (hdeg : ∀ m ∈ ms, m.2.sum < k)
    (hlenm : ∀ m ∈ ms, m.2.length = sizes.length)
    (index : Nat) (hidx : (index : Int) < sizesProd sizes)
    (d : Nat) (hd : d < sizes.length)
    (hguard : (coord_from_index_go sizes (index : Int)).getD d 0 + (k : Int)
      < sizes.getD d 0) :
    ((List.range (k + 1)).map (fun j => co j *
      evalP ms (coord_from_index_go sizes
        ((index : Int) + (j : Int) * (stridesOf sizes).getD d 0)))).sum = 0 := by
  have hcong : ∀ j ∈ List.range (k + 1),
      co j * evalP ms (coord_from_index_go sizes
        ((index : Int) + (j : Int) * (stridesOf sizes).getD d 0))
      = co j * evalP ms ((coord_from_index_go sizes (index : Int)).set d
          ((coord_from_index_go sizes (index : Int)).getD d 0 + j)) := by
    intro j hj
    have hjk : j ≤ k := by
      have := List.mem_range.mp hj
      omega
    rw [decode_bump sizes hsz (index : Int) (by positivity) hidx d hd j
      (by push_cast; omega)]
  rw [List.map_congr_left hcong]
  exact stencil_vanish k co hkill ms _ d hdeg
    (fun m hm => by rw [hlenm m hm]; exact hd)
    (by rw [coord_from_index_go_length]; exact hd)

/-! Claim C7, stage 5: `add_model_constraint` with only `model_k` active
preserves the zero-residual invariant for degree-<k sampled polynomials. -/

theorem add_model_constraint_modelOnly_goodRes
    (sizes : List Int) (k : Nat) (w : Rat) (ms : List (Rat × List Nat))
    (hk : k ≤ 4) (hw : 0 < w) (hsz : ∀ s ∈ sizes, 0 < s)
    (hdeg : ∀ m ∈ ms, m.2.sum < k)
    (hlen : ∀ m ∈ ms, m.2.length = sizes.length)
    (eq : LinearEquation) (index : Nat)
    (hidx : (index : Int) < sizesProd sizes) (d : Nat) (hd : d < sizes.length)
    (h : GoodRes eq (fun idx => evalP ms (coord_from_index_go sizes idx))) :
    GoodRes (add_model_constraint ⟨sizes, eq⟩ (modelOnly k w)
        (coord_from_index_go sizes (index : Int)) (index : Int) d).eq
      (fun idx => evalP ms (coord_from_index_go sizes idx)) := by
  interval_cases k
  · simp only [add_model_constraint, LatticeField.strides]
    norm_num [modelOnly]
    split
    · refine add_equation_goodRes _ _ _ _ _ ?_ h
      have hms : ms = [] := by
        cases ms with
        | nil => rfl
        | cons m tl =>
          have := hdeg m (List.mem_cons_self _ _)
          omega
      subst hms
      simp [evalP]
    · exact h
  · simp only [add_model_constraint, LatticeField.strides]
    norm_num [modelOnly]
    split
    · next hg =>
      simp only [← List.getD_eq_getElem?_getD] at hg
      refine add_equation_goodRes _ _ _ _ _ ?_ h
      simp only [List.map_cons, List.map_nil, List.sum_cons, List.sum_nil]
      have hv := block_res_zero sizes hsz ms 1
        (fun j => if j = 0 then (-1:Rat) else 1) kill_1
        hdeg hlen index hidx d hd (by push_cast; omega)
      simp only [List.range_succ, List.range_zero, List.map_append,
        List.map_cons, List.map_nil, List.sum_append, List.sum_cons,
        List.sum_nil] at hv
      norm_num at hv
      linear_combination hv
    · exact h
  · simp only [add_model_constraint, LatticeField.strides]
    norm_num [modelOnly]
    split
    · next hg =>
      simp only [← List.getD_eq_getElem?_getD] at hg
      refine add_equation_goodRes _ _ _ _ _ ?_ h
      simp only [List.map_cons, List.map_nil, List.sum_cons, List.sum_nil]
      have hv := block_res_zero sizes hsz ms 2
        (fun j => if j = 0 then (1:Rat) else if j = 1 then -2 else 1) kill_2
        hdeg hlen index hidx d hd (by push_cast; omega)
      simp only [List.range_succ, List.range_zero, List.map_append,
        List.map_cons, List.map_nil, List.sum_append, List.sum_cons,
        List.sum_nil] at hv
      norm_num at hv
      linear_combination hv
    · exact h
  · simp only [add_model_constraint, LatticeField.strides]
    norm_num [modelOnly]
    split
    · next hg =>
      simp only [← List.getD_eq_getElem?_getD] at hg
      refine add_equation_goodRes _ _ _ _ _ ?_ h
      simp only [List.map_cons, List.map_nil, List.sum_cons, List.sum_nil]
      have hv := block_res_zero sizes hsz ms 3
        (fun j => if j = 0 then (1:Rat) else if j = 1 then -3
          else if j = 2 then 3 else -1) kill_3
        hdeg hlen index hidx d hd (by push_cast; omega)
      simp only [List.range_succ, List.range_zero, List.map_append,
        List.map_cons, List.map_nil, List.sum_append, List.sum_cons,
        List.sum_nil] at hv
      norm_num at hv
      linear_combination hv
    · exact h
  · simp only [add_model_constraint, LatticeField.strides]
    norm_num [modelOnly]
    split
    · next hg =>
      simp only [← List.getD_eq_getElem?_getD] at hg
      refine add_equation_goodRes _ _ _ _ _ ?_ h
      simp only [List.map_cons, List.map_nil, List.sum_cons, List.sum_nil]
      have hv := block_res_zero sizes hsz ms 4
        (fun j => if j = 0 then (1:Rat) else if j = 1 then -4
          else if j = 2 then 6 else if j = 3 then -4 else 1) kill_4
        hdeg hlen index hidx d hd (by push_cast; omega)
      simp only [List.range_succ, List.range_zero, List.map_append,
        List.map_cons, List.map_nil, List.sum_append, List.sum_cons,
        List.sum_nil] at hv
      norm_num at hv
      linear_combination hv
    · exact h

/-- Claim C7: for each k ∈ {0,…,4}, when the field constraints are
assembled with only `model_k` positive (all other weights zero), every
field obtained by sampling a polynomial of total degree < k (given as a
list of monomials) at the lattice coordinates has zero residual on every
assembled row, in exact arithmetic. -/
theorem model_constraints_nullspace (sizes : List Int) (k : Nat) (w : Rat)
    (ms : List (Rat × List Nat)) (hk : k ≤ 4) (hw : 0 < w)
    (hsz : ∀ s ∈ sizes, 0 < s)
    (hdeg : ∀ m ∈ ms, m.2.sum < k)
    (hlen : ∀ m ∈ ms, m.2.length = sizes.length) :
    ZeroResidual (add_field_constraints ⟨sizes, ⟨[], []⟩⟩ (modelOnly k w)).eq
      (fun idx => evalP ms (coord_from_index_go sizes idx)) := by
  have hbase : GoodRes (⟨[], []⟩ : LinearEquation)
      (fun idx => evalP ms (coord_from_index_go sizes idx)) :=
    ⟨fun t ht => absurd ht (List.not_mem_nil t),
     fun r hr => absurd hr (Nat.not_lt_zero r)⟩
  have hmain := foldl_preserves_mem
    (fun f : LatticeField => f.sizes = sizes ∧
      GoodRes f.eq (fun idx => evalP ms (coord_from_index_go sizes idx)))
    (fun f (nindex : Nat) =>
      (List.range f.sizes.length).foldl (fun f2 d =>
        add_model_constraint f2 (modelOnly k w)
          (coordinate_from_index f (nindex : Int)) (nindex : Int) d) f)
    (List.range (((⟨sizes, ⟨[], []⟩⟩ : LatticeField).sizes.foldl
      (fun a s => a * s) 1).toNat))
    ?_ ⟨sizes, ⟨[], []⟩⟩ ⟨rfl, hbase⟩
  · unfold add_field_constraints
    exact hmain.2.2
  · intro f nindex hmem hP
    obtain ⟨hfs, hgood⟩ := hP
    have hidx : (nindex : Int) < sizesProd sizes := by
      have hm := List.mem_range.mp hmem
      dsimp only at hm
      rw [foldl_mul_eq_sizesProd] at hm
      omega
    have hinner := foldl_preserves_mem
      (fun f2 : LatticeField => f2.sizes = sizes ∧
        GoodRes f2.eq (fun idx => evalP ms (coord_from_index_go sizes idx)))
      (fun f2 d => add_model_constraint f2 (modelOnly k w)
        (coordinate_from_index f (nindex : Int)) (nindex : Int) d)
      (List.range f.sizes.length) ?_ f ⟨hfs, hgood⟩
    · exact hinner
    · intro f2 d hdmem hP2
      obtain ⟨hf2s, hg2⟩ := hP2
      have hd : d < sizes.length := by
        rw [← hfs]
        exact List.mem_range.mp hdmem
      obtain ⟨s2, e2⟩ := f2
      simp only at hf2s
      have hcoord : coordinate_from_index f (nindex : Int)
          = coord_from_index_go sizes (nindex : Int) := by
        unfold coordinate_from_index
        rw [hfs]
      constructor
      · exact hf2s
      · rw [hf2s] at hg2 ⊢
        rw [hcoord]
        exact add_model_constraint_modelOnly_goodRes sizes k w ms hk hw hsz
          hdeg hlen e2 nindex hidx d hd hg2

/-- Witness for C7: `sizes=[4]`, `k=2`, `w=1`, the affine polynomial
`P(c) = 2c + 5` (degree 1 < 2) sampled on the lattice. -/
theorem model_constraints_nullspace_witness :
    ((2:Nat) ≤ 4) ∧ ((0:Rat) < 1) ∧ (∀ s ∈ ([4] : List Int), 0 < s) ∧
    (∀ m ∈ [((2:Rat), [1]), ((5:Rat), ([0] : List Nat))], m.2.sum < 2) ∧
    (∀ m ∈ [((2:Rat), [1]), ((5:Rat), ([0] : List Nat))],
      m.2.length = ([4] : List Int).length) ∧
    ZeroResidual (add_field_constraints ⟨[4], ⟨[], []⟩⟩ (modelOnly 2 1)).eq
      (fun idx => evalP [((2:Rat), [1]), ((5:Rat), ([0] : List Nat))]
        (coord_from_index_go [4] idx)) :=
  ⟨by decide, by with_unfolding_all decide, by decide, by decide, by decide,
    model_constraints_nullspace [4] 2 1 [((2:Rat), [1]), ((5:Rat), ([0] : List Nat))]
      (by decide) (by with_unfolding_all decide) (by decide) (by decide)
      (by decide)⟩

end FieldInterpolation
